import Mathlib

/-!
# Dispatch board: order lifecycle, views and synthetic ingest

A shallow embedding of `script.js`.  The order array is a `List Order`; the
in-place writes of `assignOrder` and `markDelivered` to the object returned by
`orders.find` become a rewrite of the first matching list element (the array
never holds the same object twice: it is built from literals and from fresh
objects pushed by the ingest callback).

Conventions of the embedding:

* ids and counters are natural numbers, timestamps (`Date` values, compared by
  subtraction in the source) are integers counting milliseconds;
* `null` is `none`;
* `total` is kept in cents (the source stores the double nearest to a number
  with two decimals, which the count of cents determines);
* `status` only ever takes the three string values written in the source;
* a result of `Math.random()` is a double of `[0, 1)`, kept as a significand
  of at most 53 bits over a power of two; the products and the sum computed
  from it are rounded to the nearest double, ties to even, as IEEE 754
  arithmetic does, so `Math.floor(Math.random() * n)`, the amount and the
  comparison with `0.3` are those of the source bit for bit;
* `String.prototype.localeCompare` is supplied by the host and is a parameter;
* `Array.prototype.sort` is stable; for a consistent comparator its result is
  the stable sorted rearrangement, computed here by insertion.
-/

namespace Dispatch

/-! ## Data model -/

/-- The three values of the `status` field. -/
inductive Status where
  | Unassigned
  | Assigned
  | Delivered
deriving DecidableEq, Repr

/-- Position of a status in the lifecycle `Unassigned < Assigned < Delivered`. -/
def Status.rank : Status → Nat
  | .Unassigned => 0
  | .Assigned => 1
  | .Delivered => 2

/-- One element of the `orders` array. -/
structure Order where
  id : Nat
  invoice : String
  garage : String
  area : String
  total : Nat
  items : Nat
  warehouses : List String
  urgent : Bool
  status : Status
  driverId : Option Nat
  deliveredTime : Option Int
deriving DecidableEq, Repr

/-- The mutable globals of the script: the order array and the two counters. -/
structure Board where
  orders : List Order
  nextOrderId : Nat
  nextInvoiceNum : Nat
deriving DecidableEq, Repr

/-- The `orders` literal; `now` is the value of `Date.now()` at load time. -/
def seedOrders (now : Int) : List Order :=
  [ { id := 101, invoice := "INV001", garage := "Shop A", area := "North", total := 15000,
      items := 4, warehouses := ["WH1"], urgent := true, status := .Assigned,
      driverId := some 1, deliveredTime := none },
    { id := 102, invoice := "INV002", garage := "Shop B", area := "South", total := 7550,
      items := 2, warehouses := ["WH3", "WH5"], urgent := true, status := .Unassigned,
      driverId := none, deliveredTime := none },
    { id := 103, invoice := "INV003", garage := "Shop C", area := "East", total := 20000,
      items := 5, warehouses := ["WH2"], urgent := false, status := .Assigned,
      driverId := some 2, deliveredTime := none },
    { id := 104, invoice := "INV004", garage := "Shop D", area := "West", total := 30000,
      items := 1, warehouses := ["WH4"], urgent := false, status := .Delivered,
      driverId := some 1, deliveredTime := some (now - 2 * 60 * 60 * 1000) },
    { id := 105, invoice := "INV005", garage := "Shop E", area := "Central", total := 18000,
      items := 3, warehouses := ["WH1", "WH3"], urgent := false, status := .Unassigned,
      driverId := none, deliveredTime := none } ]

/-- The state at load time: the seed orders, `nextOrderId = 106`, `nextInvoiceNum = 6`. -/
def seedBoard (now : Int) : Board :=
  { orders := seedOrders now, nextOrderId := 106, nextInvoiceNum := 6 }

/-! ## Transitions -/

/-- The lookup `orders.find(o => o.id === orderId)`: the first order with that id. -/
def findOrder (orders : List Order) (orderId : Nat) : Option Order :=
  orders.find? (fun o => decide (o.id = orderId))

/-- Position in the array of the object that `findOrder` returns. -/
def findIndex (orders : List Order) (orderId : Nat) : Nat :=
  orders.findIdx (fun o => decide (o.id = orderId))

/-- In-place update of the object returned by `find`: the first order with the id is
rewritten by `f`; when there is none (`if (order)` fails) the array is untouched. -/
def updateFound (f : Order → Order) (orderId : Nat) : List Order → List Order
  | [] => []
  | o :: rest =>
    if o.id = orderId then f o :: rest else o :: updateFound f orderId rest

/-- The function `assignOrder(orderId, driverId)`: `order.driverId = driverId;
order.status = 'Assigned'` on the found order. -/
def assignOrder (orders : List Order) (orderId driverId : Nat) : List Order :=
  updateFound (fun order => { order with driverId := some driverId, status := .Assigned })
    orderId orders

/-- The function `markDelivered(orderId)`: `order.status = 'Delivered';
order.deliveredTime = new Date()` on the found order; `now` is the value of `new Date()`. -/
def markDelivered (orders : List Order) (orderId : Nat) (now : Int) : List Order :=
  updateFound (fun order => { order with status := .Delivered, deliveredTime := some now })
    orderId orders

/-! ## Synthetic ingest -/

/-- A result of `Math.random()`: a double at least 0 and below 1, written `m / 2 ^ e` with
a significand `m` of at most 53 bits and `e` at most 1074.  These are exactly the doubles
of `[0, 1)` (a normal one has `e` between 53 and 1074, a subnormal one `e = 1074`). -/
structure Unit01 where
  m : Nat
  e : Nat
  m_lt : m < 2 ^ 53
  e_le : e ≤ 1074
  lt_one : m < 2 ^ e

/-- The number of low bits a numerator has beyond the 53 bits of a significand: 0 below
`2 ^ 53`, otherwise one more than for half the numerator (`fuel` bounds the halvings). -/
def extraBits : Nat → Nat → Nat
  | 0, _ => 0
  | fuel + 1, p => if p < 2 ^ 53 then 0 else extraBits fuel (p / 2) + 1

/-- The weight `2 ^ s` of the last bit kept when `p` is cut to its 53 leading bits. -/
def lastBit (p : Nat) : Nat :=
  2 ^ extraBits p p

/-- Rounding to the nearest double, ties to the even significand: for `e ≤ 1074` and a
value `p / 2 ^ e` below `2 ^ 1023` the nearest double is `roundNearestEven p / 2 ^ e`.
A numerator below `2 ^ 53` is exact; a longer one keeps its 53 leading bits and goes up
when the bits cut off are more than half the last bit kept, or exactly half with an odd
significand. -/
def roundNearestEven (p : Nat) : Nat :=
  if p < 2 ^ 53 then p
  else
    if lastBit p < 2 * (p % lastBit p) ∨
        (2 * (p % lastBit p) = lastBit p ∧ p / lastBit p % 2 = 1) then
      (p / lastBit p + 1) * lastBit p
    else p / lastBit p * lastBit p

/-- The index `Math.floor(Math.random() * n)`: the double product, rounded, then floored. -/
def randomIndex (r : Unit01) (n : Nat) : Nat :=
  roundNearestEven (r.m * n) / 2 ^ r.e

def sampleGarages : List String := ["Shop X", "Shop Y", "Shop Z"]

def sampleAreas : List String := ["North", "East", "South", "West", "Central"]

def sampleWarehouses : List String := ["WH1", "WH2", "WH3", "WH4", "WH5"]

/-- The expression `arr[Math.floor(Math.random() * arr.length)]`.  An index outside the
array would give `undefined`, written here as the string `"undefined"`. -/
def pick (arr : List String) (r : Unit01) : String :=
  arr.getD (randomIndex r arr.length) "undefined"

/-- The method `Set.prototype.add` on a set kept in insertion order. -/
def setAdd (whSet : List String) (wh : String) : List String :=
  if wh ∈ whSet then whSet else whSet ++ [wh]

/-- The loop `while (whSet.size < warehouseCount) { whSet.add(random warehouse) }`.
`draws i` is the `i`-th value of `Math.random()` the loop consumes; the loop runs for at
most `fuel` tests of its condition and gives `none` when they do not suffice. -/
def warehouseLoop (warehouseCount : Nat) (draws : Nat → Unit01) :
    Nat → Nat → List String → Option (List String)
  | 0, _, _ => none
  | fuel + 1, i, whSet =>
    if whSet.length < warehouseCount then
      warehouseLoop warehouseCount draws fuel (i + 1)
        (setAdd whSet (pick sampleWarehouses (draws i)))
    else some whSet

/-- The method `padStart(targetLength, fill)` for a one-character fill. -/
def padStart (s : String) (targetLength : Nat) (fill : Char) : String :=
  ⟨List.replicate (targetLength - s.length) fill ++ s.data⟩

/-- The invoice string built from the counter:
`'INV' + String(nextInvoiceNum).padStart(3, '0')`. -/
def newInvoice (nextInvoiceNum : Nat) : String :=
  "INV" ++ padStart (toString nextInvoiceNum) 3 '0'

/-- The values of `Math.random()` consumed by one run of the ingest callback. -/
structure Draws where
  garage : Unit01
  area : Unit01
  amount : Unit01
  items : Unit01
  count : Unit01
  warehouse : Nat → Unit01
  urgent : Unit01

/-- The double `Math.random() * 300 + 50`, as a numerator over `2 ^ r.e`: the product is
rounded, then the sum is. -/
def amountDouble (r : Unit01) : Nat :=
  roundNearestEven (roundNearestEven (r.m * 300) + 50 * 2 ^ r.e)

/-- The value `parseFloat((Math.random() * 300 + 50).toFixed(2))` in cents: `toFixed(2)`
takes the exact value of the double to the nearest cent, a tie going up. -/
def randomAmount (r : Unit01) : Nat :=
  (200 * amountDouble r + 2 ^ r.e) / (2 * 2 ^ r.e)

/-- The value `Math.floor(Math.random() * 2) + 1`. -/
def warehouseCount (r : Unit01) : Nat :=
  randomIndex r 2 + 1

/-- The test `Math.random() < 0.3`; the double `0.3` is `5404319552844595 / 2 ^ 54`. -/
def belowThreeTenths (r : Unit01) : Bool :=
  decide (r.m * 2 ^ 54 < 5404319552844595 * 2 ^ r.e)

/-- The object literal `newOrder` of the ingest callback, given the finished `whSet`. -/
def newOrder (b : Board) (d : Draws) (whSet : List String) : Order :=
  { id := b.nextOrderId
    invoice := newInvoice b.nextInvoiceNum
    garage := pick sampleGarages d.garage
    area := pick sampleAreas d.area
    total := randomAmount d.amount
    items := randomIndex d.items 5 + 1
    warehouses := whSet
    urgent := belowThreeTenths d.urgent
    status := .Unassigned
    driverId := none
    deliveredTime := none }

/-- The callback that `fetchNewOrders` schedules: both counters are read and incremented,
the warehouse loop runs, and the new order is pushed.  `none` when the loop has not
finished within `fuel` tests of its condition. -/
def fetchNewOrders (b : Board) (d : Draws) (fuel : Nat) : Option Board :=
  match warehouseLoop (warehouseCount d.count) d.warehouse fuel 0 [] with
  | none => none
  | some whSet =>
    some { orders := b.orders ++ [newOrder b d whSet]
           nextOrderId := b.nextOrderId + 1
           nextInvoiceNum := b.nextInvoiceNum + 1 }

/-! ## Views -/

/-- The model of `Array.prototype.sort(compareFn)`: stable, `a` is placed before `b`
when `compareFn(a, b) ≤ 0`. -/
def sort (compareFn : Order → Order → Int) (arr : List Order) : List Order :=
  arr.insertionSort (fun a b => compareFn a b ≤ 0)

/-- A boolean used as a number. -/
def boolNum (b : Bool) : Int := if b then 1 else 0

/-- The comparator `(a, b) => (b.urgent - a.urgent) || a.invoice.localeCompare(b.invoice)`. -/
def comparePriority (localeCompare : String → String → Int) (a b : Order) : Int :=
  if boolNum b.urgent - boolNum a.urgent ≠ 0 then boolNum b.urgent - boolNum a.urgent
  else localeCompare a.invoice b.invoice

/-- The comparator of the delivered table: `b.deliveredTime - a.deliveredTime` when both
are set, otherwise 0. -/
def compareDelivered (a b : Order) : Int :=
  match a.deliveredTime, b.deliveredTime with
  | some ta, some tb => tb - ta
  | _, _ => 0

/-- The array `unassignedOrders` of `renderOrders`. -/
def unassignedOrders (localeCompare : String → String → Int) (orders : List Order) :
    List Order :=
  sort (comparePriority localeCompare) (orders.filter (fun o => decide (o.status = .Unassigned)))

/-- The array `assignedOrders` of `renderOrders`. -/
def assignedOrders (localeCompare : String → String → Int) (orders : List Order) :
    List Order :=
  sort (comparePriority localeCompare) (orders.filter (fun o => decide (o.status = .Assigned)))

/-- The array `deliveredOrders` of `renderOrders`. -/
def deliveredOrders (orders : List Order) : List Order :=
  sort compareDelivered (orders.filter (fun o => decide (o.status = .Delivered)))

/-! ## The board as a state machine -/

/-- One event that changes the board: a call of `assignOrder`, a call of `markDelivered`
(with the clock value it reads), or one run of the ingest callback (with the random values
it reads and a bound on the tests of its loop). -/
inductive Step where
  | assign (orderId driverId : Nat)
  | deliver (orderId : Nat) (now : Int)
  | ingest (d : Draws) (fuel : Nat)

/-- The board after one event; `none` when the ingest callback has not finished. -/
def step (b : Board) : Step → Option Board
  | .assign orderId driverId => some { b with orders := assignOrder b.orders orderId driverId }
  | .deliver orderId now => some { b with orders := markDelivered b.orders orderId now }
  | .ingest d fuel => fetchNewOrders b d fuel

/-- The board after a sequence of events, each one finished before the next starts. -/
def run (b : Board) : List Step → Option Board
  | [] => some b
  | s :: rest => (step b s).bind (fun b' => run b' rest)

/-- The boards reachable from the seed loaded at time `now`. -/
def Reachable (now : Int) (b : Board) : Prop :=
  ∃ steps, run (seedBoard now) steps = some b

/-- Number of ingest events in a sequence. -/
def ingestCount : List Step → Nat
  | [] => 0
  | .ingest _ _ :: rest => ingestCount rest + 1
  | _ :: rest => ingestCount rest

/-- The events that respect the lifecycle: `assignOrder` is not applied to a delivered
order and `markDelivered` is not applied to an unassigned one.  An id that matches no
order is allowed, and so is assigning an assigned order again or delivering a delivered
one; the buttons of the tables only ever produce events of this kind. -/
def stepAllowed (b : Board) : Step → Bool
  | .assign orderId _ =>
    match findOrder b.orders orderId with
    | some o => decide (o.status ≠ .Delivered)
    | none => true
  | .deliver orderId _ =>
    match findOrder b.orders orderId with
    | some o => decide (o.status ≠ .Unassigned)
    | none => true
  | .ingest _ _ => true

/-- The board after a sequence of events, `none` as soon as one is not allowed. -/
def runAllowed (b : Board) : List Step → Option Board
  | [] => some b
  | s :: rest =>
    if stepAllowed b s then (step b s).bind (fun b' => runAllowed b' rest) else none

/-- The record invariant of the data model: `driverId` is set exactly when the status is
not `Unassigned`, `deliveredTime` exactly when it is `Delivered`. -/
def Order.Consistent (o : Order) : Prop :=
  (o.driverId.isSome = true ↔ o.status ≠ .Unassigned) ∧
    (o.deliveredTime.isSome = true ↔ o.status = .Delivered)

instance (o : Order) : Decidable o.Consistent := by
  unfold Order.Consistent; infer_instance

/-- The number written by a list of decimal digits. -/
def parseDigits (l : List Char) : Nat :=
  l.foldl (fun acc c => 10 * acc + (c.toNat - 48)) 0

/-- The sequence number of an invoice: the number written after the three letters. -/
def invoiceSeq (invoice : String) : Nat :=
  parseDigits (invoice.data.drop 3)

/-- The numbering invariant of the board: ids and invoice sequence numbers increase along
the array and lie below the two counters, and every invoice is the string the ingest
callback builds from its sequence number. -/
def Board.WellNumbered (b : Board) : Prop :=
  (b.orders.map fun o => o.id).Pairwise (· < ·) ∧
    (∀ o ∈ b.orders, o.id < b.nextOrderId) ∧
    (b.orders.map fun o => invoiceSeq o.invoice).Pairwise (· < ·) ∧
    (∀ o ∈ b.orders, invoiceSeq o.invoice < b.nextInvoiceNum ∧
      o.invoice = newInvoice (invoiceSeq o.invoice))

/-- A concrete string comparison with the sign convention of `localeCompare`: negative,
zero or positive as the first string is before, equal to or after the second in the order
of code points.  It serves to run the views on examples. -/
def lexCompare (s t : String) : Int :=
  if s < t then -1 else if s = t then 0 else 1

/-! ## Concrete random values, used to run the ingest callback on examples -/

/-- The draw 0. -/
def drawZero : Unit01 := ⟨0, 0, by decide, by decide, by decide⟩

/-- The draw 1/2. -/
def drawHalf : Unit01 := ⟨1, 1, by decide, by decide, by decide⟩

/-- The double `0.6`, that is `5404319552844595 / 2 ^ 53`. -/
def drawSixTenths : Unit01 := ⟨5404319552844595, 53, by decide, by decide, by decide⟩

/-- The double just below `0.6`, printed `0.5999999999999999`. -/
def drawBelowSixTenths : Unit01 := ⟨2702159776422297, 52, by decide, by decide, by decide⟩

/-- The double `0.7`, that is `3152519739159347 / 2 ^ 52`. -/
def drawSevenTenths : Unit01 := ⟨3152519739159347, 52, by decide, by decide, by decide⟩

/-- The double `0.3`, that is `5404319552844595 / 2 ^ 54`. -/
def drawThreeTenths : Unit01 := ⟨5404319552844595, 54, by decide, by decide, by decide⟩

/-- The double `0.8102166666666667`, that is `7297782956178731 / 2 ^ 53`. -/
def drawAmountTie : Unit01 := ⟨7297782956178731, 53, by decide, by decide, by decide⟩

/-- The draws 0, 1/4, 1/2, 3/4, 0, ... -/
def drawQuarters (i : Nat) : Unit01 :=
  ⟨i % 4, 2, Nat.lt_of_lt_of_le (Nat.mod_lt i (by decide)) (by decide), by decide,
    Nat.mod_lt i (by decide)⟩

/-- A run in which every draw is 0: one warehouse, `WH1`. -/
def drawsAllZero : Draws :=
  { garage := drawZero, area := drawZero, amount := drawZero, items := drawZero,
    count := drawZero, warehouse := fun _ => drawZero, urgent := drawZero }

/-- A run that asks for two warehouses and whose loop draws are 0, 1/4, 1/2, ... -/
def drawsCycling : Draws :=
  { garage := drawHalf, area := drawHalf, amount := drawHalf, items := drawHalf,
    count := drawHalf, warehouse := drawQuarters, urgent := drawHalf }

/-- A run that asks for two warehouses and whose loop draws are `0.6`, then the double
just below it for ever. -/
def drawsRounding : Draws :=
  { garage := drawHalf, area := drawHalf, amount := drawHalf, items := drawHalf,
    count := drawHalf,
    warehouse := fun i => if i = 0 then drawSixTenths else drawBelowSixTenths,
    urgent := drawThreeTenths }

/-- A run that asks for two warehouses and whose loop draws are all 0. -/
def drawsStuck : Draws :=
  { garage := drawZero, area := drawZero, amount := drawZero, items := drawZero,
    count := drawHalf, warehouse := fun _ => drawZero, urgent := drawZero }

/-- The fields written when an order is created and by no transition. -/
def Order.SameCreation (o o' : Order) : Prop :=
  o'.id = o.id ∧ o'.invoice = o.invoice ∧ o'.garage = o.garage ∧ o'.area = o.area ∧
    o'.total = o.total ∧ o'.items = o.items ∧ o'.warehouses = o.warehouses ∧
    o'.urgent = o.urgent

end Dispatch

namespace Dispatch

/-! ## Lookup and in-place update -/

theorem updateFound_of_none (f : Order → Order) (orderId : Nat) :
    ∀ orders : List Order, findOrder orders orderId = none →
      updateFound f orderId orders = orders
  | [], _ => rfl
  | o :: rest, h => by
    unfold findOrder at h
    by_cases ho : o.id = orderId
    · simp [List.find?_cons, ho] at h
    · simp only [List.find?_cons, ho, decide_False] at h
      simp only [updateFound, ho, if_false]
      rw [updateFound_of_none f orderId rest h]

theorem updateFound_of_some (f : Order → Order) (orderId : Nat) :
    ∀ (orders : List Order) (o : Order), findOrder orders orderId = some o →
      findIndex orders orderId < orders.length ∧
      orders[findIndex orders orderId]? = some o ∧
      updateFound f orderId orders = orders.set (findIndex orders orderId) (f o)
  | [], o, h => by simp [findOrder] at h
  | p :: rest, o, h => by
    unfold findOrder at h
    by_cases hp : p.id = orderId
    · simp only [List.find?_cons, hp, decide_True, Option.some.injEq] at h
      subst h
      simp [findIndex, List.findIdx_cons, hp, updateFound]
    · simp only [List.find?_cons, hp, decide_False] at h
      obtain ⟨h1, h2, h3⟩ := updateFound_of_some f orderId rest o h
      have hidx : findIndex (p :: rest) orderId = findIndex rest orderId + 1 := by
        simp [findIndex, List.findIdx_cons, hp]
      rw [hidx]
      refine ⟨by simpa using h1, by simpa using h2, ?_⟩
      simp only [updateFound, hp, if_false, List.set_cons_succ, h3]

theorem updateFound_length (f : Order → Order) (orderId : Nat) :
    ∀ orders : List Order, (updateFound f orderId orders).length = orders.length
  | [] => rfl
  | o :: rest => by
    by_cases ho : o.id = orderId
    · simp [updateFound, ho]
    · simp [updateFound, ho, updateFound_length f orderId rest]

theorem updateFound_getElem? (f : Order → Order) (orderId : Nat) (orders : List Order)
    (i : Nat) (o : Order) (hi : orders[i]? = some o) :
    (updateFound f orderId orders)[i]? = some o ∨
      ((updateFound f orderId orders)[i]? = some (f o) ∧ findOrder orders orderId = some o) := by
  cases hfind : findOrder orders orderId with
  | none => left; rw [updateFound_of_none f orderId orders hfind]; exact hi
  | some p =>
    obtain ⟨h1, h2, h3⟩ := updateFound_of_some f orderId orders p hfind
    rw [h3]
    by_cases hidx : findIndex orders orderId = i
    · right
      subst hidx
      have hp : p = o := by rw [h2] at hi; exact Option.some.inj hi
      subst hp
      exact ⟨List.getElem?_set_self h1, rfl⟩
    · left
      rw [List.getElem?_set_ne hidx]; exact hi

theorem mem_updateFound (f : Order → Order) (orderId : Nat) (orders : List Order) (x : Order)
    (hx : x ∈ updateFound f orderId orders) :
    x ∈ orders ∨ ∃ o, findOrder orders orderId = some o ∧ x = f o := by
  cases hfind : findOrder orders orderId with
  | none => left; rwa [updateFound_of_none f orderId orders hfind] at hx
  | some p =>
    obtain ⟨_, _, h3⟩ := updateFound_of_some f orderId orders p hfind
    rw [h3] at hx
    rcases List.mem_or_eq_of_mem_set hx with h | h
    · exact Or.inl h
    · exact Or.inr ⟨p, rfl, h⟩

theorem fetchNewOrders_eq_some (b b' : Board) (d : Draws) (fuel : Nat)
    (h : fetchNewOrders b d fuel = some b') :
    ∃ whSet, warehouseLoop (warehouseCount d.count) d.warehouse fuel 0 [] = some whSet ∧
      b' = { orders := b.orders ++ [newOrder b d whSet]
             nextOrderId := b.nextOrderId + 1
             nextInvoiceNum := b.nextInvoiceNum + 1 } := by
  unfold fetchNewOrders at h
  cases hl : warehouseLoop (warehouseCount d.count) d.warehouse fuel 0 [] with
  | none => rw [hl] at h; exact absurd h (by simp)
  | some whSet =>
    rw [hl] at h
    exact ⟨whSet, rfl, (Option.some.inj h).symm⟩

/-! ## The two transitions on one order -/

/-- C2. When `orderId` identifies an order `o` of the collection (the one `find` returns)
and `o` is `Unassigned`, `assignOrder orders orderId driverId`, for any `driverId`
whatever, is the collection with the entry at the position of `o` replaced by an order of
status `Assigned` and driver `driverId` whose nine other fields are those of `o`; the
length and every other position are unchanged. -/
theorem assignOrder_unassigned (orders : List Order) (orderId driverId : Nat) (o : Order)
    (hfind : findOrder orders orderId = some o) (_hst : o.status = .Unassigned) :
    ∃ o' : Order,
      findIndex orders orderId < orders.length ∧
      orders[findIndex orders orderId]? = some o ∧
      (assignOrder orders orderId driverId).length = orders.length ∧
      (assignOrder orders orderId driverId)[findIndex orders orderId]? = some o' ∧
      (∀ j, j ≠ findIndex orders orderId →
        (assignOrder orders orderId driverId)[j]? = orders[j]?) ∧
      o'.status = .Assigned ∧ o'.driverId = some driverId ∧
      o'.id = o.id ∧ o'.invoice = o.invoice ∧ o'.garage = o.garage ∧ o'.area = o.area ∧
      o'.total = o.total ∧ o'.items = o.items ∧ o'.warehouses = o.warehouses ∧
      o'.urgent = o.urgent ∧ o'.deliveredTime = o.deliveredTime := by
  obtain ⟨h1, _, h3⟩ := updateFound_of_some
    (fun order => { order with driverId := some driverId, status := .Assigned }) orderId
    orders o hfind
  refine ⟨{ o with driverId := some driverId, status := .Assigned }, h1, by assumption, ?_, ?_,
    ?_, rfl, rfl, rfl, rfl, rfl, rfl, rfl, rfl, rfl, rfl, rfl⟩
  · exact updateFound_length _ _ _
  · rw [assignOrder, h3, List.getElem?_set_self h1]
  · intro j hj
    rw [assignOrder, h3, List.getElem?_set_ne (Ne.symm hj)]

/-- Witness for C2 on the seed: assigning order 102 (Unassigned) to driver 7, who is not
in the roster. -/
theorem assignOrder_unassigned_witness :
    findOrder (seedOrders 0) 102 = some ((seedOrders 0).get ⟨1, by decide⟩) ∧
    ((seedOrders 0).get ⟨1, by decide⟩).status = .Unassigned ∧
    ∃ o' : Order,
      findIndex (seedOrders 0) 102 < (seedOrders 0).length ∧
      (seedOrders 0)[findIndex (seedOrders 0) 102]? = some ((seedOrders 0).get ⟨1, by decide⟩) ∧
      (assignOrder (seedOrders 0) 102 7).length = (seedOrders 0).length ∧
      (assignOrder (seedOrders 0) 102 7)[findIndex (seedOrders 0) 102]? = some o' ∧
      (∀ j, j ≠ findIndex (seedOrders 0) 102 →
        (assignOrder (seedOrders 0) 102 7)[j]? = (seedOrders 0)[j]?) ∧
      o'.status = .Assigned ∧ o'.driverId = some 7 ∧
      o'.id = ((seedOrders 0).get ⟨1, by decide⟩).id ∧
      o'.invoice = ((seedOrders 0).get ⟨1, by decide⟩).invoice ∧
      o'.garage = ((seedOrders 0).get ⟨1, by decide⟩).garage ∧
      o'.area = ((seedOrders 0).get ⟨1, by decide⟩).area ∧
      o'.total = ((seedOrders 0).get ⟨1, by decide⟩).total ∧
      o'.items = ((seedOrders 0).get ⟨1, by decide⟩).items ∧
      o'.warehouses = ((seedOrders 0).get ⟨1, by decide⟩).warehouses ∧
      o'.urgent = ((seedOrders 0).get ⟨1, by decide⟩).urgent ∧
      o'.deliveredTime = ((seedOrders 0).get ⟨1, by decide⟩).deliveredTime :=
  ⟨by decide, by decide,
    assignOrder_unassigned (seedOrders 0) 102 7 _ (by decide) (by decide)⟩

/-- C3. When `orderId` identifies an order `o` of the collection and `o` is `Assigned`,
`markDelivered orders orderId t`, run when the clock reads `t`, is the collection with the
entry at the position of `o` replaced by an order of status `Delivered` and delivered time
`t` whose driver and eight other fields are those of `o`; the length and every other
position are unchanged. -/
theorem markDelivered_assigned (orders : List Order) (orderId : Nat) (t : Int) (o : Order)
    (hfind : findOrder orders orderId = some o) (_hst : o.status = .Assigned) :
    ∃ o' : Order,
      findIndex orders orderId < orders.length ∧
      orders[findIndex orders orderId]? = some o ∧
      (markDelivered orders orderId t).length = orders.length ∧
      (markDelivered orders orderId t)[findIndex orders orderId]? = some o' ∧
      (∀ j, j ≠ findIndex orders orderId →
        (markDelivered orders orderId t)[j]? = orders[j]?) ∧
      o'.status = .Delivered ∧ o'.deliveredTime = some t ∧ o'.driverId = o.driverId ∧
      o'.id = o.id ∧ o'.invoice = o.invoice ∧ o'.garage = o.garage ∧ o'.area = o.area ∧
      o'.total = o.total ∧ o'.items = o.items ∧ o'.warehouses = o.warehouses ∧
      o'.urgent = o.urgent := by
  obtain ⟨h1, _, h3⟩ := updateFound_of_some
    (fun order => { order with status := .Delivered, deliveredTime := some t }) orderId
    orders o hfind
  refine ⟨{ o with status := .Delivered, deliveredTime := some t }, h1, by assumption, ?_, ?_,
    ?_, rfl, rfl, rfl, rfl, rfl, rfl, rfl, rfl, rfl, rfl, rfl⟩
  · exact updateFound_length _ _ _
  · rw [markDelivered, h3, List.getElem?_set_self h1]
  · intro j hj
    rw [markDelivered, h3, List.getElem?_set_ne (Ne.symm hj)]

/-- Witness for C3 on the seed: delivering order 103 (Assigned to driver 2) at time 5000. -/
theorem markDelivered_assigned_witness :
    findOrder (seedOrders 0) 103 = some ((seedOrders 0).get ⟨2, by decide⟩) ∧
    ((seedOrders 0).get ⟨2, by decide⟩).status = .Assigned ∧
    ∃ o' : Order,
      findIndex (seedOrders 0) 103 < (seedOrders 0).length ∧
      (seedOrders 0)[findIndex (seedOrders 0) 103]? = some ((seedOrders 0).get ⟨2, by decide⟩) ∧
      (markDelivered (seedOrders 0) 103 5000).length = (seedOrders 0).length ∧
      (markDelivered (seedOrders 0) 103 5000)[findIndex (seedOrders 0) 103]? = some o' ∧
      (∀ j, j ≠ findIndex (seedOrders 0) 103 →
        (markDelivered (seedOrders 0) 103 5000)[j]? = (seedOrders 0)[j]?) ∧
      o'.status = .Delivered ∧ o'.deliveredTime = some 5000 ∧
      o'.driverId = ((seedOrders 0).get ⟨2, by decide⟩).driverId ∧
      o'.id = ((seedOrders 0).get ⟨2, by decide⟩).id ∧
      o'.invoice = ((seedOrders 0).get ⟨2, by decide⟩).invoice ∧
      o'.garage = ((seedOrders 0).get ⟨2, by decide⟩).garage ∧
      o'.area = ((seedOrders 0).get ⟨2, by decide⟩).area ∧
      o'.total = ((seedOrders 0).get ⟨2, by decide⟩).total ∧
      o'.items = ((seedOrders 0).get ⟨2, by decide⟩).items ∧
      o'.warehouses = ((seedOrders 0).get ⟨2, by decide⟩).warehouses ∧
      o'.urgent = ((seedOrders 0).get ⟨2, by decide⟩).urgent :=
  ⟨by decide, by decide,
    markDelivered_assigned (seedOrders 0) 103 5000 _ (by decide) (by decide)⟩

/-- C4. When `orderId` matches no order of the collection, `assignOrder` with any
`driverId` and `markDelivered` at any clock value both return the collection unchanged. -/
theorem transitions_missing_id (orders : List Order) (orderId driverId : Nat) (t : Int)
    (hfind : findOrder orders orderId = none) :
    assignOrder orders orderId driverId = orders ∧ markDelivered orders orderId t = orders :=
  ⟨updateFound_of_none _ orderId orders hfind, updateFound_of_none _ orderId orders hfind⟩

/-- Witness for C4 on the seed: no order has id 999. -/
theorem transitions_missing_id_witness :
    findOrder (seedOrders 0) 999 = none ∧
    assignOrder (seedOrders 0) 999 2 = seedOrders 0 ∧
    markDelivered (seedOrders 0) 999 5000 = seedOrders 0 :=
  ⟨by decide, transitions_missing_id (seedOrders 0) 999 2 5000 (by decide)⟩

/-! ## The record invariant -/

theorem newOrder_consistent (b : Board) (d : Draws) (whSet : List String) :
    (newOrder b d whSet).Consistent := by
  simp [Order.Consistent, newOrder]

theorem step_consistent (b b' : Board) (s : Step) (hb : ∀ o ∈ b.orders, o.Consistent)
    (hs : stepAllowed b s = true) (h : step b s = some b') : ∀ o ∈ b'.orders, o.Consistent := by
  cases s with
  | assign orderId driverId =>
    simp only [step, Option.some.injEq] at h
    subst h
    intro x hx
    rcases mem_updateFound _ _ _ _ hx with hx | ⟨o, ho, rfl⟩
    · exact hb x hx
    · have hoc := hb o (List.mem_of_find?_eq_some ho)
      simp only [stepAllowed, ho, decide_eq_true_eq] at hs
      obtain ⟨h1, h2⟩ := hoc
      constructor
      · simp
      · simp only [h2]
        constructor
        · intro h; exact absurd h hs
        · intro h; cases h
  | deliver orderId now =>
    simp only [step, Option.some.injEq] at h
    subst h
    intro x hx
    rcases mem_updateFound _ _ _ _ hx with hx | ⟨o, ho, rfl⟩
    · exact hb x hx
    · have hoc := hb o (List.mem_of_find?_eq_some ho)
      simp only [stepAllowed, ho, decide_eq_true_eq] at hs
      obtain ⟨h1, h2⟩ := hoc
      constructor
      · simp only [h1]
        constructor
        · intro _ h; cases h
        · intro _; exact hs
      · simp
  | ingest d fuel =>
    obtain ⟨whSet, _, rfl⟩ := fetchNewOrders_eq_some b b' d fuel h
    intro x hx
    rcases List.mem_append.mp hx with hx | hx
    · exact hb x hx
    · rw [List.mem_singleton.mp hx]; exact newOrder_consistent b d whSet

theorem runAllowed_consistent (steps : List Step) :
    ∀ b b' : Board, (∀ o ∈ b.orders, o.Consistent) → runAllowed b steps = some b' →
      ∀ o ∈ b'.orders, o.Consistent := by
  induction steps with
  | nil =>
    intro b b' hb h
    simp only [runAllowed, Option.some.injEq] at h
    subst h; exact hb
  | cons s rest ih =>
    intro b b' hb h
    simp only [runAllowed] at h
    by_cases hs : stepAllowed b s = true
    · rw [if_pos hs] at h
      cases hstep : step b s with
      | none => rw [hstep] at h; exact absurd h (by simp)
      | some b1 =>
        rw [hstep] at h
        exact ih b1 b' (step_consistent b b1 s hb hs hstep) h
    · rw [if_neg hs] at h; exact absurd h (by simp)

/-- C1, counterexample.  `markDelivered` has no guard on the status: from the seed,
`markDelivered(102)` on the Unassigned order 102 leaves it `Delivered` with no driver, so
the invariant does not hold in every state reachable by steps with arbitrary arguments. -/
theorem consistent_fails_unguarded :
    run (seedBoard 0) [Step.deliver 102 5000] =
      some { seedBoard 0 with orders := markDelivered (seedOrders 0) 102 5000 } ∧
    ((markDelivered (seedOrders 0) 102 5000)[1]?.map fun o => (o.id, o.status, o.driverId)) =
      some (102, Status.Delivered, none) ∧
    ¬ (∀ b, Reachable 0 b → ∀ o ∈ b.orders, o.Consistent) := by
  refine ⟨rfl, by decide, ?_⟩
  intro h
  have := h { seedBoard 0 with orders := markDelivered (seedOrders 0) 102 5000 }
    ⟨[Step.deliver 102 5000], rfl⟩
  revert this
  decide

/-- C1, amended.  In every state reached from the seed by a sequence of `assignOrder`,
`markDelivered` and ingest steps in which `assignOrder` is never applied to a Delivered
order and `markDelivered` never to an Unassigned one (ids that match no order, driver ids
and clock values being arbitrary), every order has `driverId` present exactly when its
status is not `Unassigned` and `deliveredTime` present exactly when it is `Delivered`. -/
theorem consistent_of_runAllowed (now : Int) (steps : List Step) (b : Board)
    (h : runAllowed (seedBoard now) steps = some b) : ∀ o ∈ b.orders, o.Consistent := by
  refine runAllowed_consistent steps (seedBoard now) b ?_ h
  intro o ho
  simp only [seedBoard, seedOrders, List.mem_cons, List.mem_singleton, List.not_mem_nil,
    or_false] at ho
  rcases ho with rfl | rfl | rfl | rfl | rfl <;> simp [Order.Consistent]

/-- Witness for the amended C1: assign 102 to driver 3, ingest one order, deliver 102 at
time 5000, deliver a missing id. -/
theorem consistent_of_runAllowed_witness :
    runAllowed (seedBoard 0)
        [.assign 102 3, .ingest drawsCycling 3, .deliver 102 5000, .deliver 999 6000] =
      some { orders := markDelivered (assignOrder (seedOrders 0) 102 3 ++
               [newOrder { seedBoard 0 with orders := assignOrder (seedOrders 0) 102 3 }
                 drawsCycling ["WH1", "WH2"]]) 102 5000
             nextOrderId := 107
             nextInvoiceNum := 7 } ∧
    ∀ o ∈ markDelivered (assignOrder (seedOrders 0) 102 3 ++
        [newOrder { seedBoard 0 with orders := assignOrder (seedOrders 0) 102 3 }
          drawsCycling ["WH1", "WH2"]]) 102 5000, o.Consistent :=
  ⟨by decide,
    consistent_of_runAllowed 0
      [.assign 102 3, .ingest drawsCycling 3, .deliver 102 5000, .deliver 999 6000]
      { orders := markDelivered (assignOrder (seedOrders 0) 102 3 ++
          [newOrder { seedBoard 0 with orders := assignOrder (seedOrders 0) 102 3 }
            drawsCycling ["WH1", "WH2"]]) 102 5000
        nextOrderId := 107
        nextInvoiceNum := 7 } (by decide)⟩

/-! ## Monotonicity of the lifecycle -/

theorem sameCreation_refl (o : Order) : o.SameCreation o :=
  ⟨rfl, rfl, rfl, rfl, rfl, rfl, rfl, rfl⟩

/-- C5, counterexample.  `assignOrder` has no guard on the status: on the seed,
`assignOrder(104, 2)` takes the Delivered order 104 back to `Assigned`, so it is not true
that no step moves a status backward. -/
theorem assignOrder_moves_delivered_back :
    ((seedOrders 0)[3]?.map fun o => (o.id, o.status)) = some (104, Status.Delivered) ∧
    ((assignOrder (seedOrders 0) 104 2)[3]?.map fun o => (o.id, o.status)) =
      some (104, Status.Assigned) ∧
    ¬ (∀ (b b' : Board) (s : Step), step b s = some b' →
        ∀ (i : Nat) (o o' : Order), b.orders[i]? = some o → b'.orders[i]? = some o' →
          o'.id = o.id → o.status.rank ≤ o'.status.rank) := by
  refine ⟨by decide, by decide, ?_⟩
  intro h
  have h4 := h (seedBoard 0) _ (.assign 104 2) rfl 3 _ _ rfl rfl rfl
  revert h4
  decide

/-- C5, amended.  For every collection and every step of `assignOrder`, `markDelivered`
or ingest with arbitrary arguments, the collection does not get shorter and every order
stays at its position with its creation fields (id, invoice, garage, area, total, items,
warehouses, urgent) unchanged; its status does not move backward in
`Unassigned < Assigned < Delivered`, except that `assignOrder` applied to the id of a
Delivered order sets that order back to `Assigned`. -/
theorem step_keeps_orders (b b' : Board) (s : Step) (h : step b s = some b') :
    b.orders.length ≤ b'.orders.length ∧
    ∀ (i : Nat) (o : Order), b.orders[i]? = some o →
      ∃ o', b'.orders[i]? = some o' ∧ o.SameCreation o' ∧
        (o.status.rank ≤ o'.status.rank ∨
          (o.status = .Delivered ∧ o'.status = .Assigned ∧
            ∃ orderId driverId, s = .assign orderId driverId ∧
              findOrder b.orders orderId = some o)) := by
  cases s with
  | assign orderId driverId =>
    simp only [step, Option.some.injEq] at h
    subst h
    refine ⟨le_of_eq (updateFound_length _ _ _).symm, ?_⟩
    intro i o hi
    rcases updateFound_getElem? (fun order =>
      { order with driverId := some driverId, status := .Assigned }) orderId b.orders i o hi
      with h1 | ⟨h1, h2⟩
    · exact ⟨o, h1, sameCreation_refl o, Or.inl (le_refl _)⟩
    · refine ⟨_, h1, ⟨rfl, rfl, rfl, rfl, rfl, rfl, rfl, rfl⟩, ?_⟩
      cases hst : o.status with
      | Unassigned => left; simp [Status.rank]
      | Assigned => left; simp [Status.rank]
      | Delivered => right; exact ⟨rfl, rfl, orderId, driverId, rfl, h2⟩
  | deliver orderId now =>
    simp only [step, Option.some.injEq] at h
    subst h
    refine ⟨le_of_eq (updateFound_length _ _ _).symm, ?_⟩
    intro i o hi
    rcases updateFound_getElem? (fun order =>
      { order with status := .Delivered, deliveredTime := some now }) orderId b.orders i o hi
      with h1 | ⟨h1, _⟩
    · exact ⟨o, h1, sameCreation_refl o, Or.inl (le_refl _)⟩
    · refine ⟨_, h1, ⟨rfl, rfl, rfl, rfl, rfl, rfl, rfl, rfl⟩, Or.inl ?_⟩
      cases o.status <;> simp [Status.rank]
  | ingest d fuel =>
    obtain ⟨whSet, _, rfl⟩ := fetchNewOrders_eq_some b b' d fuel h
    refine ⟨by simp, ?_⟩
    intro i o hi
    have hlt : i < b.orders.length := by
      by_contra hge
      rw [List.getElem?_eq_none (not_lt.mp hge)] at hi
      exact absurd hi (by simp)
    refine ⟨o, ?_, sameCreation_refl o, Or.inl (le_refl _)⟩
    simp only [List.getElem?_append_left hlt]
    exact hi

/-- Witness for the amended C5: delivering the Assigned order 101 of the seed. -/
theorem step_keeps_orders_witness :
    step (seedBoard 0) (.deliver 101 5000) =
      some { seedBoard 0 with orders := markDelivered (seedOrders 0) 101 5000 } ∧
    (seedBoard 0).orders.length ≤ (markDelivered (seedOrders 0) 101 5000).length ∧
    ∀ (i : Nat) (o : Order), (seedBoard 0).orders[i]? = some o →
      ∃ o', (markDelivered (seedOrders 0) 101 5000)[i]? = some o' ∧ o.SameCreation o' ∧
        (o.status.rank ≤ o'.status.rank ∨
          (o.status = .Delivered ∧ o'.status = .Assigned ∧
            ∃ orderId driverId, Step.deliver 101 5000 = .assign orderId driverId ∧
              findOrder (seedBoard 0).orders orderId = some o)) :=
  ⟨rfl, step_keeps_orders (seedBoard 0) _ (.deliver 101 5000) rfl⟩

/-! ## The urgent-first views -/

theorem comparePriority_le_iff (lc : String → String → Int) (a b : Order) :
    comparePriority lc a b ≤ 0 ↔
      (a.urgent = true ∧ b.urgent = false) ∨
        (a.urgent = b.urgent ∧ lc a.invoice b.invoice ≤ 0) := by
  unfold comparePriority boolNum
  cases a.urgent <;> cases b.urgent <;> simp

theorem sort_priority_perm_sorted (lc : String → String → Int)
    (htotal : ∀ s t, lc s t ≤ 0 ∨ lc t s ≤ 0)
    (htrans : ∀ s t u, lc s t ≤ 0 → lc t u ≤ 0 → lc s u ≤ 0) (l : List Order) :
    (sort (comparePriority lc) l).Perm l ∧
    (sort (comparePriority lc) l).Pairwise (fun a b =>
      (b.urgent = true → a.urgent = true) ∧
        (a.urgent = b.urgent → lc a.invoice b.invoice ≤ 0)) := by
  haveI : IsTotal Order (fun a b => comparePriority lc a b ≤ 0) := ⟨by
    intro a b
    simp only [comparePriority_le_iff]
    rcases htotal a.invoice b.invoice with h | h <;>
      cases ha : a.urgent <;> cases hb : b.urgent <;> simp [h]⟩
  haveI : IsTrans Order (fun a b => comparePriority lc a b ≤ 0) := ⟨by
    intro a b c
    simp only [comparePriority_le_iff]
    rintro (⟨h1, h2⟩ | ⟨h1, h2⟩) (⟨h3, h4⟩ | ⟨h3, h4⟩)
    · rw [h2] at h3; cases h3
    · left; exact ⟨h1, by rw [← h3]; exact h2⟩
    · left; exact ⟨by rw [h1]; exact h3, h4⟩
    · right; exact ⟨h1.trans h3, htrans _ _ _ h2 h4⟩⟩
  refine ⟨List.perm_insertionSort _ l, ?_⟩
  have hs := List.sorted_insertionSort (fun a b => comparePriority lc a b ≤ 0) l
  refine List.Pairwise.imp ?_ hs
  intro a b hab
  rcases (comparePriority_le_iff lc a b).mp hab with ⟨h1, h2⟩ | ⟨h1, h2⟩
  · exact ⟨fun _ => h1, fun h => by rw [h1, h2] at h; cases h⟩
  · exact ⟨fun h => h1 ▸ h, fun _ => h2⟩

theorem lexCompare_le_iff (s t : String) : lexCompare s t ≤ 0 ↔ s ≤ t := by
  unfold lexCompare
  split_ifs with h1 h2
  · simp [le_of_lt h1]
  · simp [h2]
  · have : ¬ s ≤ t := fun h => (lt_or_eq_of_le h).elim h1 h2
    simp [this]

theorem lexCompare_total (s t : String) : lexCompare s t ≤ 0 ∨ lexCompare t s ≤ 0 := by
  simp only [lexCompare_le_iff]; exact le_total s t

theorem lexCompare_trans (s t u : String) (h1 : lexCompare s t ≤ 0)
    (h2 : lexCompare t u ≤ 0) : lexCompare s u ≤ 0 := by
  simp only [lexCompare_le_iff] at *; exact le_trans h1 h2

/-- C6.  Let `lc` be the host comparison `localeCompare`, a consistent comparator (any
two strings compare one way or the other, transitively).  For every collection the
Unassigned view, and likewise the Assigned view, is a rearrangement of the orders with
that status, each as often as in the collection; every urgent order precedes every
non-urgent one, and among orders of equal urgency an earlier invoice compares `≤` a later
one.  Two Unassigned orders INV010 (not urgent) and INV005 (urgent) are shown as
`[INV005, INV010]`, whatever `lc` is. -/
theorem priority_views_sorted (lc : String → String → Int)
    (htotal : ∀ s t, lc s t ≤ 0 ∨ lc t s ≤ 0)
    (htrans : ∀ s t u, lc s t ≤ 0 → lc t u ≤ 0 → lc s u ≤ 0) (orders : List Order) :
    (unassignedOrders lc orders).Perm
      (orders.filter fun o => decide (o.status = .Unassigned)) ∧
    (unassignedOrders lc orders).Pairwise (fun a b =>
      (b.urgent = true → a.urgent = true) ∧
        (a.urgent = b.urgent → lc a.invoice b.invoice ≤ 0)) ∧
    (assignedOrders lc orders).Perm
      (orders.filter fun o => decide (o.status = .Assigned)) ∧
    (assignedOrders lc orders).Pairwise (fun a b =>
      (b.urgent = true → a.urgent = true) ∧
        (a.urgent = b.urgent → lc a.invoice b.invoice ≤ 0)) ∧
    ∀ a b : Order, a.status = .Unassigned → a.invoice = "INV010" → a.urgent = false →
      b.status = .Unassigned → b.invoice = "INV005" → b.urgent = true →
      (unassignedOrders lc [a, b]).map (fun o => o.invoice) = ["INV005", "INV010"] ∧
      (unassignedOrders lc [b, a]).map (fun o => o.invoice) = ["INV005", "INV010"] := by
  obtain ⟨h1, h2⟩ := sort_priority_perm_sorted lc htotal htrans
    (orders.filter fun o => decide (o.status = .Unassigned))
  obtain ⟨h3, h4⟩ := sort_priority_perm_sorted lc htotal htrans
    (orders.filter fun o => decide (o.status = .Assigned))
  refine ⟨h1, h2, h3, h4, ?_⟩
  intro a b ha1 ha2 ha3 hb1 hb2 hb3
  simp [unassignedOrders, sort, ha1, hb1, List.orderedInsert, comparePriority, boolNum,
    ha3, hb3, ha2, hb2]

/-- Witness for C6: the views of the seed under the code-point comparison. -/
theorem priority_views_sorted_witness :
    (∀ s t, lexCompare s t ≤ 0 ∨ lexCompare t s ≤ 0) ∧
    (∀ s t u, lexCompare s t ≤ 0 → lexCompare t u ≤ 0 → lexCompare s u ≤ 0) ∧
    (unassignedOrders lexCompare (seedOrders 0)).map (fun o => (o.invoice, o.urgent)) =
      [("INV002", true), ("INV005", false)] ∧
    (assignedOrders lexCompare (seedOrders 0)).map (fun o => (o.invoice, o.urgent)) =
      [("INV001", true), ("INV003", false)] ∧
    (unassignedOrders lexCompare (seedOrders 0)).Perm
      ((seedOrders 0).filter fun o => decide (o.status = .Unassigned)) ∧
    (unassignedOrders lexCompare (seedOrders 0)).Pairwise (fun a b =>
      (b.urgent = true → a.urgent = true) ∧
        (a.urgent = b.urgent → lexCompare a.invoice b.invoice ≤ 0)) :=
  ⟨lexCompare_total, lexCompare_trans, by decide, by decide,
    (priority_views_sorted lexCompare lexCompare_total lexCompare_trans (seedOrders 0)).1,
    (priority_views_sorted lexCompare lexCompare_total lexCompare_trans (seedOrders 0)).2.1⟩

/-! ## The delivered view -/

theorem orderedInsert_congr {α : Type} (r r' : α → α → Prop) [DecidableRel r]
    [DecidableRel r'] (a : α) :
    ∀ l : List α, (∀ b ∈ l, r a b ↔ r' a b) → l.orderedInsert r a = l.orderedInsert r' a
  | [], _ => rfl
  | b :: l, h => by
    have hb : r a b ↔ r' a b := h b (List.mem_cons_self b l)
    have ih := orderedInsert_congr r r' a l (fun c hc => h c (List.mem_cons_of_mem b hc))
    by_cases hr : r a b
    · simp [List.orderedInsert, hr, hb.mp hr]
    · have hr' : ¬ r' a b := fun h' => hr (hb.mpr h')
      simp [List.orderedInsert, hr, hr', ih]

theorem insertionSort_congr {α : Type} (r r' : α → α → Prop) [DecidableRel r]
    [DecidableRel r'] :
    ∀ l : List α, (∀ a ∈ l, ∀ b ∈ l, r a b ↔ r' a b) →
      l.insertionSort r = l.insertionSort r'
  | [], _ => rfl
  | a :: l, h => by
    have ih := insertionSort_congr r r' l
      (fun x hx y hy => h x (List.mem_cons_of_mem a hx) y (List.mem_cons_of_mem a hy))
    simp only [List.insertionSort, ih]
    apply orderedInsert_congr
    intro b hb
    exact h a (List.mem_cons_self a l) b
      (List.mem_cons_of_mem a ((List.mem_insertionSort r').mp hb))

theorem sort_delivered_perm_sorted (l : List Order)
    (hl : ∀ o ∈ l, o.deliveredTime.isSome = true) :
    (sort compareDelivered l).Perm l ∧
    (sort compareDelivered l).Pairwise (fun x y =>
      ∃ tx ty, x.deliveredTime = some tx ∧ y.deliveredTime = some ty ∧ ty ≤ tx) := by
  have hperm : (sort compareDelivered l).Perm l := List.perm_insertionSort _ l
  refine ⟨hperm, ?_⟩
  have hcongr : sort compareDelivered l =
      l.insertionSort (fun a b => b.deliveredTime.getD 0 ≤ a.deliveredTime.getD 0) := by
    apply insertionSort_congr
    intro a ha b hb
    obtain ⟨ta, hta⟩ := Option.isSome_iff_exists.mp (hl a ha)
    obtain ⟨tb, htb⟩ := Option.isSome_iff_exists.mp (hl b hb)
    simp [compareDelivered, hta, htb]
  haveI : IsTotal Order (fun a b => b.deliveredTime.getD 0 ≤ a.deliveredTime.getD 0) :=
    ⟨fun a b => le_total _ _⟩
  haveI : IsTrans Order (fun a b => b.deliveredTime.getD 0 ≤ a.deliveredTime.getD 0) :=
    ⟨fun a b c h1 h2 => le_trans h2 h1⟩
  have hs := List.sorted_insertionSort
    (fun a b : Order => b.deliveredTime.getD 0 ≤ a.deliveredTime.getD 0) l
  rw [← hcongr] at hs
  refine List.Pairwise.imp_of_mem ?_ hs
  intro a b ha hb hab
  obtain ⟨ta, hta⟩ := Option.isSome_iff_exists.mp (hl a (hperm.mem_iff.mp ha))
  obtain ⟨tb, htb⟩ := Option.isSome_iff_exists.mp (hl b (hperm.mem_iff.mp hb))
  refine ⟨ta, tb, hta, htb, ?_⟩
  simpa [hta, htb] using hab

theorem step_delivered_stamped (b b' : Board) (s : Step)
    (hb : ∀ o ∈ b.orders, o.status = .Delivered → o.deliveredTime.isSome = true)
    (h : step b s = some b') :
    ∀ o ∈ b'.orders, o.status = .Delivered → o.deliveredTime.isSome = true := by
  cases s with
  | assign orderId driverId =>
    simp only [step, Option.some.injEq] at h
    subst h
    intro x hx
    rcases mem_updateFound _ _ _ _ hx with hx | ⟨o, _, rfl⟩
    · exact hb x hx
    · intro hst; cases hst
  | deliver orderId now =>
    simp only [step, Option.some.injEq] at h
    subst h
    intro x hx
    rcases mem_updateFound _ _ _ _ hx with hx | ⟨o, _, rfl⟩
    · exact hb x hx
    · intro _; rfl
  | ingest d fuel =>
    obtain ⟨whSet, _, rfl⟩ := fetchNewOrders_eq_some b b' d fuel h
    intro x hx
    rcases List.mem_append.mp hx with hx | hx
    · exact hb x hx
    · rw [List.mem_singleton.mp hx]; intro hst; cases hst

theorem run_delivered_stamped (steps : List Step) :
    ∀ b b' : Board,
      (∀ o ∈ b.orders, o.status = .Delivered → o.deliveredTime.isSome = true) →
      run b steps = some b' →
      ∀ o ∈ b'.orders, o.status = .Delivered → o.deliveredTime.isSome = true := by
  induction steps with
  | nil =>
    intro b b' hb h
    simp only [run, Option.some.injEq] at h
    subst h; exact hb
  | cons s rest ih =>
    intro b b' hb h
    simp only [run] at h
    cases hstep : step b s with
    | none => rw [hstep] at h; exact absurd h (by simp)
    | some b1 =>
      rw [hstep] at h
      exact ih b1 b' (step_delivered_stamped b b1 s hb hstep) h

theorem seed_delivered_stamped (now : Int) :
    ∀ o ∈ (seedBoard now).orders, o.status = .Delivered → o.deliveredTime.isSome = true := by
  intro o ho
  simp only [seedBoard, seedOrders, List.mem_cons, List.mem_singleton, List.not_mem_nil,
    or_false] at ho
  rcases ho with rfl | rfl | rfl | rfl | rfl <;> simp

/-- C7.  In every state reachable from the seed (by `assignOrder`, `markDelivered` and
ingest steps with arbitrary arguments) the Delivered view is a rearrangement of the orders
with status `Delivered`, each as often as in the collection; every order in it has a
delivered time, and the delivered time of an order is at least that of every order after
it, in particular of the next one. -/
theorem deliveredOrders_sorted (now : Int) (b : Board) (h : Reachable now b) :
    (deliveredOrders b.orders).Perm
      (b.orders.filter fun o => decide (o.status = .Delivered)) ∧
    (deliveredOrders b.orders).Pairwise (fun x y =>
      ∃ tx ty, x.deliveredTime = some tx ∧ y.deliveredTime = some ty ∧ ty ≤ tx) ∧
    (deliveredOrders b.orders).Chain' (fun x y =>
      ∃ tx ty, x.deliveredTime = some tx ∧ y.deliveredTime = some ty ∧ ty ≤ tx) := by
  obtain ⟨steps, hrun⟩ := h
  have hinv := run_delivered_stamped steps _ b (seed_delivered_stamped now) hrun
  have hl : ∀ o ∈ b.orders.filter (fun o => decide (o.status = .Delivered)),
      o.deliveredTime.isSome = true := by
    intro o ho
    rw [List.mem_filter] at ho
    exact hinv o ho.1 (of_decide_eq_true ho.2)
  obtain ⟨h1, h2⟩ := sort_delivered_perm_sorted _ hl
  exact ⟨h1, h2, h2.chain'⟩

/-- Witness for C7: the seed after delivering 103 at time 4000 and then 101 at time 9000;
the seed order 104 was delivered two hours before load time 0. -/
theorem deliveredOrders_sorted_witness :
    Reachable 0 { seedBoard 0 with
      orders := markDelivered (markDelivered (seedOrders 0) 103 4000) 101 9000 } ∧
    (deliveredOrders (markDelivered (markDelivered (seedOrders 0) 103 4000) 101 9000)).map
        (fun o => (o.id, o.deliveredTime)) =
      [(101, some 9000), (103, some 4000), (104, some (-7200000))] ∧
    (deliveredOrders (markDelivered (markDelivered (seedOrders 0) 103 4000) 101 9000)).Pairwise
      (fun x y => ∃ tx ty, x.deliveredTime = some tx ∧ y.deliveredTime = some ty ∧ ty ≤ tx) :=
  ⟨⟨[.deliver 103 4000, .deliver 101 9000], rfl⟩, by decide,
    (deliveredOrders_sorted 0 _ ⟨[.deliver 103 4000, .deliver 101 9000], rfl⟩).2.1⟩

/-! ## The warehouse loop of the ingest callback -/

theorem extraBits_of_lt (fuel p : Nat) (h : p < 2 ^ 53) : extraBits fuel p = 0 := by
  cases fuel with
  | zero => rfl
  | succ fuel => exact if_pos h

theorem extraBits_le (fuel : Nat) :
    ∀ p : Nat, p ≤ fuel → 2 ^ 53 ≤ p → 2 ^ extraBits fuel p * 2 ^ 52 ≤ p := by
  induction fuel with
  | zero =>
    intro p hp h53
    have : 0 < 2 ^ 53 := Nat.pos_pow_of_pos _ (by decide)
    omega
  | succ fuel ih =>
    intro p hp h53
    have hstep : extraBits (fuel + 1) p = extraBits fuel (p / 2) + 1 :=
      if_neg (not_lt.mpr h53)
    rw [hstep, Nat.pow_succ]
    by_cases hhalf : p / 2 < 2 ^ 53
    · rw [extraBits_of_lt fuel (p / 2) hhalf]
      have e3 : (2 : Nat) ^ 0 * 2 * 2 ^ 52 = 2 ^ 53 := by norm_num
      rw [e3]; exact h53
    · have := ih (p / 2) (by omega) (not_lt.mp hhalf)
      have h2 : 2 * (p / 2) ≤ p := Nat.mul_div_le p 2
      calc 2 ^ extraBits fuel (p / 2) * 2 * 2 ^ 52
          = 2 * (2 ^ extraBits fuel (p / 2) * 2 ^ 52) := by ring
        _ ≤ 2 * (p / 2) := Nat.mul_le_mul_left 2 this
        _ ≤ p := h2

theorem roundNearestEven_lt (m n pow : Nat) (hm : m < 2 ^ 53) (hpow : m < pow)
    (hn : 0 < n) : roundNearestEven (m * n) < n * pow := by
  have h1 : m * n + n ≤ n * pow := by
    have := Nat.mul_le_mul_left n (Nat.succ_le_of_lt hpow)
    rw [Nat.mul_succ] at this
    rwa [Nat.mul_comm m n]
  unfold roundNearestEven
  split_ifs with h53 hup
  · omega
  · have hle : lastBit (m * n) * 2 ^ 52 ≤ m * n :=
      extraBits_le (m * n) (m * n) (le_refl _) (not_lt.mp h53)
    have hdm := Nat.div_add_mod (m * n) (lastBit (m * n))
    have hmn : m * n + n ≤ 2 ^ 53 * n := by
      have := Nat.mul_le_mul_right n (Nat.succ_le_of_lt hm)
      rwa [Nat.succ_mul] at this
    have hr : lastBit (m * n) ≤ 2 * (m * n % lastBit (m * n)) := by
      rcases hup with h | ⟨h, _⟩
      · exact le_of_lt h
      · exact le_of_eq h.symm
    generalize lastBit (m * n) = A at *
    generalize m * n / A = q at *
    generalize m * n % A = r at *
    have e1 : (q + 1) * A = A * q + A := by ring
    rw [e1]
    have e2 : (2 : Nat) ^ 52 = 4503599627370496 := by norm_num
    have e3 : (2 : Nat) ^ 53 = 9007199254740992 := by norm_num
    rw [e2] at hle
    rw [e3] at hmn
    omega
  · have := Nat.div_mul_le_self (m * n) (lastBit (m * n))
    omega

theorem randomIndex_lt (r : Unit01) (n : Nat) (hn : 0 < n) : randomIndex r n < n := by
  unfold randomIndex
  rw [Nat.div_lt_iff_lt_mul (Nat.pos_pow_of_pos _ (by decide))]
  exact roundNearestEven_lt r.m n (2 ^ r.e) r.m_lt r.lt_one hn

theorem pick_mem (arr : List String) (h : 0 < arr.length) (r : Unit01) : pick arr r ∈ arr := by
  unfold pick
  have hlt := randomIndex_lt r arr.length h
  rw [List.getD_eq_getElem _ _ hlt]
  exact List.getElem_mem _

theorem warehouseCount_eq (r : Unit01) : warehouseCount r = 1 ∨ warehouseCount r = 2 := by
  have h := randomIndex_lt r 2 (by decide)
  unfold warehouseCount
  omega

theorem setAdd_nodup (whSet : List String) (wh : String) (h : whSet.Nodup) :
    (setAdd whSet wh).Nodup := by
  unfold setAdd
  split_ifs with hm
  · exact h
  · exact List.Nodup.append h (List.nodup_singleton wh) (by
      intro x hx hx'
      rw [List.mem_singleton] at hx'
      exact hm (hx' ▸ hx))

theorem setAdd_subset (whSet : List String) (wh : String) (x : String)
    (hx : x ∈ setAdd whSet wh) : x ∈ whSet ∨ x = wh := by
  unfold setAdd at hx
  split_ifs at hx with hm
  · exact Or.inl hx
  · rcases List.mem_append.mp hx with h | h
    · exact Or.inl h
    · exact Or.inr (List.mem_singleton.mp h)

theorem setAdd_length_le (whSet : List String) (wh : String) :
    (setAdd whSet wh).length ≤ whSet.length + 1 := by
  unfold setAdd
  split_ifs <;> simp

theorem warehouseLoop_spec (n : Nat) (w : Nat → Unit01) :
    ∀ (fuel i : Nat) (whSet ws : List String),
      warehouseLoop n w fuel i whSet = some ws →
      whSet.Nodup → (∀ x ∈ whSet, x ∈ sampleWarehouses) → whSet.length ≤ n →
      ws.length = n ∧ ws.Nodup ∧ ∀ x ∈ ws, x ∈ sampleWarehouses := by
  intro fuel
  induction fuel with
  | zero => intro i whSet ws h; simp [warehouseLoop] at h
  | succ fuel ih =>
    intro i whSet ws h hnd hsub hlen
    simp only [warehouseLoop] at h
    split_ifs at h with hlt
    · refine ih (i + 1) _ ws h (setAdd_nodup _ _ hnd) ?_ ?_
      · intro x hx
        rcases setAdd_subset _ _ _ hx with hx | hx
        · exact hsub x hx
        · rw [hx]; exact pick_mem _ (by decide) _
      · exact le_trans (setAdd_length_le _ _) hlt
    · have hws : whSet = ws := Option.some.inj h
      subst hws
      exact ⟨le_antisymm hlen (not_lt.mp hlt), hnd, hsub⟩

theorem warehouseLoop_two_finishes (w : Nat → Unit01) (x : String) :
    ∀ k i : Nat, pick sampleWarehouses (w (i + k)) ≠ x →
      ∃ fuel ws, warehouseLoop 2 w fuel i [x] = some ws := by
  intro k
  induction k with
  | zero =>
    intro i h
    refine ⟨2, [x, pick sampleWarehouses (w i)], ?_⟩
    have h' : pick sampleWarehouses (w i) ≠ x := h
    simp [warehouseLoop, setAdd, h']
  | succ k ih =>
    intro i h
    by_cases hi : pick sampleWarehouses (w i) = x
    · have h' : pick sampleWarehouses (w (i + 1 + k)) ≠ x := by
        rw [show i + 1 + k = i + (k + 1) by omega]; exact h
      obtain ⟨fuel, ws, hf⟩ := ih (i + 1) h'
      refine ⟨fuel + 1, ws, ?_⟩
      simp [warehouseLoop, setAdd, hi, hf]
    · refine ⟨2, [x, pick sampleWarehouses (w i)], ?_⟩
      simp [warehouseLoop, setAdd, hi]

theorem warehouseLoop_two_spins (w : Nat → Unit01) (x : String)
    (h : ∀ i, pick sampleWarehouses (w i) = x) :
    ∀ fuel i : Nat, warehouseLoop 2 w fuel i [x] = none := by
  intro fuel
  induction fuel with
  | zero => intro i; rfl
  | succ fuel ih =>
    intro i
    simp [warehouseLoop, setAdd, h i, ih (i + 1)]

theorem warehouseLoop_start (n : Nat) (hn : 0 < n) (w : Nat → Unit01) (fuel : Nat) :
    warehouseLoop n w (fuel + 1) 0 [] =
      warehouseLoop n w fuel 1 [pick sampleWarehouses (w 0)] := by
  simp [warehouseLoop, setAdd, hn]

theorem warehouseCount_drawHalf : warehouseCount drawHalf = 2 := by decide

theorem warehouseLoop_drawZero_spins (fuel : Nat) :
    warehouseLoop 2 (fun _ : Nat => drawZero) fuel 0 [] = none := by
  cases fuel with
  | zero => rfl
  | succ fuel =>
    rw [warehouseLoop_start 2 (by decide)]
    exact warehouseLoop_two_spins _ _ (fun _ => rfl) fuel 1

/-- The double arithmetic at work.  `0.6 * 5` rounds up to `3`, so the draw `0.6` selects
`WH4`, as `0.7` does, while the double just below `0.6` selects `WH3`; `0.3 < 0.3` is
false; and `0.8102166666666667 * 300 + 50` rounds to the double nearest `293.065`, which
lies below it, so `toFixed(2)` gives 293.06 where the unrounded value would give 293.07. -/
theorem double_examples :
    randomIndex drawSixTenths 5 = 3 ∧ pick sampleWarehouses drawSixTenths = "WH4" ∧
    randomIndex drawBelowSixTenths 5 = 2 ∧ pick sampleWarehouses drawBelowSixTenths = "WH3" ∧
    randomIndex drawSevenTenths 5 = 3 ∧ pick sampleWarehouses drawSevenTenths = "WH4" ∧
    pick sampleWarehouses drawZero = "WH1" ∧ pick sampleWarehouses drawHalf = "WH3" ∧
    belowThreeTenths drawThreeTenths = false ∧ belowThreeTenths drawZero = true ∧
    randomAmount drawAmountTie = 29306 ∧ randomAmount drawHalf = 20000 ∧
    randomAmount drawZero = 5000 := by
  decide

/-- C10, counterexample.  When two warehouses are asked for (the count draw is 1/2) and
every draw of the loop is 0, each iteration adds `WH1` again, the set keeps size 1 and the
loop test never fails: no number of iterations finishes the loop. -/
theorem warehouseLoop_constant_draws_spin :
    warehouseCount drawHalf = 2 ∧
    pick sampleWarehouses drawZero = "WH1" ∧
    (∀ fuel, warehouseLoop (warehouseCount drawHalf) (fun _ : Nat => drawZero) fuel 0 [] =
      none) ∧
    ¬ (∀ (c : Unit01) (w : Nat → Unit01),
        ∃ fuel ws, warehouseLoop (warehouseCount c) w fuel 0 [] = some ws) := by
  refine ⟨warehouseCount_drawHalf, by decide, ?_, ?_⟩
  · rw [warehouseCount_drawHalf]; exact warehouseLoop_drawZero_spins
  · intro h
    obtain ⟨fuel, ws, hf⟩ := h drawHalf (fun _ => drawZero)
    rw [warehouseCount_drawHalf, warehouseLoop_drawZero_spins] at hf
    exact absurd hf (by simp)

/-- The loop alone: what it leaves when it finishes, and when it finishes. -/
theorem warehouseLoop_result (c : Unit01) (w : Nat → Unit01) :
    (∀ fuel ws, warehouseLoop (warehouseCount c) w fuel 0 [] = some ws →
      (ws.length = 1 ∨ ws.length = 2) ∧ ws.length = warehouseCount c ∧ ws.Nodup ∧
        ∀ x ∈ ws, x ∈ ["WH1", "WH2", "WH3", "WH4", "WH5"]) ∧
    ((∃ fuel ws, warehouseLoop (warehouseCount c) w fuel 0 [] = some ws) ↔
      (warehouseCount c = 1 ∨
        ∃ i, pick sampleWarehouses (w i) ≠
          pick sampleWarehouses (w 0))) := by
  constructor
  · intro fuel ws h
    obtain ⟨h1, h2, h3⟩ := warehouseLoop_spec (warehouseCount c) w fuel 0 [] ws h
      List.nodup_nil (by simp) (Nat.zero_le _)
    refine ⟨?_, h1, h2, h3⟩
    rw [h1]; exact warehouseCount_eq c
  · constructor
    · rintro ⟨fuel, ws, h⟩
      rcases warehouseCount_eq c with hc | hc
      · exact Or.inl hc
      · right
        by_contra hall
        push_neg at hall
        rw [hc] at h
        cases fuel with
        | zero => simp [warehouseLoop] at h
        | succ fuel =>
          rw [warehouseLoop_start 2 (by decide), warehouseLoop_two_spins w _ hall fuel 1] at h
          exact absurd h (by simp)
    · rintro (hc | ⟨i, hi⟩)
      · exact ⟨2, [pick sampleWarehouses (w 0)], by
          simp [hc, warehouseLoop, setAdd]⟩
      · rcases warehouseCount_eq c with hc | hc
        · exact ⟨2, [pick sampleWarehouses (w 0)], by
            simp [hc, warehouseLoop, setAdd]⟩
        · cases i with
          | zero => exact absurd rfl hi
          | succ i =>
            have hi' : pick sampleWarehouses (w (1 + i)) ≠
                pick sampleWarehouses (w 0) := by
              rw [Nat.add_comm]; exact hi
            obtain ⟨fuel, ws, hf⟩ := warehouseLoop_two_finishes w _ i 1 hi'
            exact ⟨fuel + 1, ws, by rw [hc, warehouseLoop_start 2 (by decide)]; exact hf⟩

/-! ## Decimal digits and invoice strings -/

theorem digitChar_toNat (k : Nat) (hk : k < 10) : (Nat.digitChar k).toNat - 48 = k := by
  interval_cases k <;> rfl

theorem toDigitsCore_eq_append :
    ∀ fuel n : Nat, n < fuel → ∀ ds : List Char,
      Nat.toDigitsCore 10 fuel n ds = Nat.toDigits 10 n ++ ds := by
  intro fuel
  induction fuel using Nat.strong_induction_on with
  | _ fuel ih =>
    intro n hn ds
    cases fuel with
    | zero => exact absurd hn (Nat.not_lt_zero n)
    | succ fuel =>
      by_cases h0 : n / 10 = 0
      · simp [Nat.toDigits, Nat.toDigitsCore, h0]
      · have hlt : n / 10 < n := Nat.div_lt_self (by omega) (by decide)
        have h1 : Nat.toDigitsCore 10 (fuel + 1) n ds =
            Nat.toDigitsCore 10 fuel (n / 10) (Nat.digitChar (n % 10) :: ds) := by
          simp [Nat.toDigitsCore, h0]
        have h2 : Nat.toDigits 10 n =
            Nat.toDigitsCore 10 n (n / 10) [Nat.digitChar (n % 10)] := by
          simp [Nat.toDigits, Nat.toDigitsCore, h0]
        rw [h1, h2, ih fuel (Nat.lt_succ_self fuel) (n / 10) (by omega),
          ih n hn (n / 10) hlt]
        simp

theorem toDigits_of_lt_ten (n : Nat) (h : n < 10) : Nat.toDigits 10 n = [Nat.digitChar n] := by
  have h0 : n / 10 = 0 := Nat.div_eq_of_lt h
  simp [Nat.toDigits, Nat.toDigitsCore, h0, Nat.mod_eq_of_lt h]

theorem toDigits_of_ten_le (n : Nat) (h : 10 ≤ n) :
    Nat.toDigits 10 n = Nat.toDigits 10 (n / 10) ++ [Nat.digitChar (n % 10)] := by
  have h0 : n / 10 ≠ 0 := by omega
  have h2 : Nat.toDigits 10 n =
      Nat.toDigitsCore 10 n (n / 10) [Nat.digitChar (n % 10)] := by
    simp [Nat.toDigits, Nat.toDigitsCore, h0]
  rw [h2, toDigitsCore_eq_append n (n / 10) (Nat.div_lt_self (by omega) (by decide))]

theorem parseDigits_append_singleton (l : List Char) (c : Char) :
    parseDigits (l ++ [c]) = 10 * parseDigits l + (c.toNat - 48) := by
  simp [parseDigits, List.foldl_append]

theorem parseDigits_toDigits (n : Nat) : parseDigits (Nat.toDigits 10 n) = n := by
  induction n using Nat.strong_induction_on with
  | _ n ih =>
    by_cases h : n < 10
    · rw [toDigits_of_lt_ten n h]
      simp [parseDigits, digitChar_toNat n h]
    · rw [toDigits_of_ten_le n (not_lt.mp h), parseDigits_append_singleton,
        ih (n / 10) (Nat.div_lt_self (by omega) (by decide)),
        digitChar_toNat (n % 10) (Nat.mod_lt n (by decide))]
      omega

theorem parseDigits_replicate_zero (k : Nat) (l : List Char) :
    parseDigits (List.replicate k '0' ++ l) = parseDigits l := by
  induction k with
  | zero => rfl
  | succ k ih =>
    have : parseDigits (List.replicate (k + 1) '0' ++ l) =
        parseDigits (List.replicate k '0' ++ l) := by
      simp only [parseDigits, List.replicate_succ, List.cons_append, List.foldl_cons]
      rfl
    rw [this, ih]

theorem newInvoice_data (n : Nat) :
    (newInvoice n).data =
      ['I', 'N', 'V'] ++ (List.replicate (3 - (Nat.toDigits 10 n).length) '0' ++
        Nat.toDigits 10 n) := rfl

theorem invoiceSeq_newInvoice (n : Nat) : invoiceSeq (newInvoice n) = n := by
  unfold invoiceSeq
  rw [newInvoice_data]
  simp only [List.cons_append, List.nil_append, List.drop_succ_cons, List.drop_zero]
  rw [parseDigits_replicate_zero, parseDigits_toDigits]

theorem newInvoice_three_digits (n : Nat) (h : n < 1000) :
    newInvoice n = ⟨['I', 'N', 'V', Nat.digitChar (n / 100), Nat.digitChar (n / 10 % 10),
      Nat.digitChar (n % 10)]⟩ := by
  have hd : (newInvoice n).data = ['I', 'N', 'V', Nat.digitChar (n / 100),
      Nat.digitChar (n / 10 % 10), Nat.digitChar (n % 10)] := by
    rw [newInvoice_data]
    by_cases h1 : n < 10
    · rw [toDigits_of_lt_ten n h1]
      have e1 : n / 100 = 0 := by omega
      have e2 : n / 10 % 10 = 0 := by omega
      have e3 : n % 10 = n := by omega
      rw [e1, e2, e3]; rfl
    · by_cases h2 : n < 100
      · rw [toDigits_of_ten_le n (not_lt.mp h1), toDigits_of_lt_ten (n / 10) (by omega)]
        have e1 : n / 100 = 0 := by omega
        have e2 : n / 10 % 10 = n / 10 := by omega
        rw [e1, e2]; rfl
      · rw [toDigits_of_ten_le n (not_lt.mp h1), toDigits_of_ten_le (n / 10) (by omega),
          toDigits_of_lt_ten (n / 10 / 10) (by omega)]
        have e1 : n / 10 / 10 = n / 100 := by omega
        rw [e1]; rfl
  exact congrArg String.mk hd

theorem digitChar_lt (a b : Nat) (hab : a < b) (hb : b < 10) :
    Nat.digitChar a < Nat.digitChar b := by
  interval_cases b <;> interval_cases a <;> decide

theorem newInvoice_lt (j k : Nat) (hjk : j < k) (hk : k < 1000) :
    newInvoice j < newInvoice k := by
  rw [newInvoice_three_digits j (by omega), newInvoice_three_digits k hk,
    String.lt_iff_toList_lt]
  show List.Lex (· < ·) _ _
  refine List.Lex.cons (List.Lex.cons (List.Lex.cons ?_))
  rcases Nat.lt_or_ge (j / 100) (k / 100) with h1 | h1
  · exact List.Lex.rel (digitChar_lt _ _ h1 (by omega))
  · have e1 : j / 100 = k / 100 := by omega
    rw [e1]
    refine List.Lex.cons ?_
    rcases Nat.lt_or_ge (j / 10 % 10) (k / 10 % 10) with h2 | h2
    · exact List.Lex.rel (digitChar_lt _ _ h2 (by omega))
    · have e2 : j / 10 % 10 = k / 10 % 10 := by omega
      rw [e2]
      refine List.Lex.cons ?_
      exact List.Lex.rel (digitChar_lt _ _ (by omega) (by omega))

/-! ## The numbering invariant -/

theorem updateFound_map {β : Type} (g : Order → β) (f : Order → Order) (orderId : Nat)
    (hf : ∀ o, g (f o) = g o) :
    ∀ orders : List Order, (updateFound f orderId orders).map g = orders.map g
  | [] => rfl
  | o :: rest => by
    by_cases ho : o.id = orderId
    · simp [updateFound, ho, hf]
    · simp [updateFound, ho, updateFound_map g f orderId hf rest]

theorem assignOrder_map_id (orders : List Order) (orderId driverId : Nat) :
    ((assignOrder orders orderId driverId).map fun o => o.id) = orders.map fun o => o.id :=
  updateFound_map (fun o => o.id)
    (fun order => { order with driverId := some driverId, status := .Assigned }) orderId
    (fun _ => rfl) orders

theorem assignOrder_map_invoice (orders : List Order) (orderId driverId : Nat) :
    ((assignOrder orders orderId driverId).map fun o => o.invoice) =
      orders.map fun o => o.invoice :=
  updateFound_map (fun o => o.invoice)
    (fun order => { order with driverId := some driverId, status := .Assigned }) orderId
    (fun _ => rfl) orders

theorem markDelivered_map_id (orders : List Order) (orderId : Nat) (now : Int) :
    ((markDelivered orders orderId now).map fun o => o.id) = orders.map fun o => o.id :=
  updateFound_map (fun o => o.id)
    (fun order => { order with status := .Delivered, deliveredTime := some now }) orderId
    (fun _ => rfl) orders

theorem markDelivered_map_invoice (orders : List Order) (orderId : Nat) (now : Int) :
    ((markDelivered orders orderId now).map fun o => o.invoice) =
      orders.map fun o => o.invoice :=
  updateFound_map (fun o => o.invoice)
    (fun order => { order with status := .Delivered, deliveredTime := some now }) orderId
    (fun _ => rfl) orders

theorem wellNumbered_of_maps (b b' : Board) (hb : b.WellNumbered)
    (hid : (b'.orders.map fun o => o.id) = b.orders.map fun o => o.id)
    (hinv : (b'.orders.map fun o => o.invoice) = b.orders.map fun o => o.invoice)
    (h1 : b'.nextOrderId = b.nextOrderId) (h2 : b'.nextInvoiceNum = b.nextInvoiceNum) :
    b'.WellNumbered := by
  obtain ⟨p1, p2, p3, p4⟩ := hb
  have hseq : (b'.orders.map fun o => invoiceSeq o.invoice) =
      b.orders.map fun o => invoiceSeq o.invoice := by
    have := congrArg (List.map invoiceSeq) hinv
    simpa [List.map_map, Function.comp_def] using this
  refine ⟨hid ▸ p1, ?_, hseq ▸ p3, ?_⟩
  · intro o ho
    have : o.id ∈ b.orders.map fun o => o.id := hid ▸ List.mem_map_of_mem _ ho
    obtain ⟨p, hp, hpe⟩ := List.mem_map.mp this
    rw [h1, ← hpe]; exact p2 p hp
  · intro o ho
    have : o.invoice ∈ b.orders.map fun o => o.invoice := hinv ▸ List.mem_map_of_mem _ ho
    obtain ⟨p, hp, hpe⟩ := List.mem_map.mp this
    rw [h2, ← hpe]; exact p4 p hp

theorem wellNumbered_push (b : Board) (d : Draws) (whSet : List String)
    (hb : b.WellNumbered) :
    Board.WellNumbered { orders := b.orders ++ [newOrder b d whSet]
                         nextOrderId := b.nextOrderId + 1
                         nextInvoiceNum := b.nextInvoiceNum + 1 } := by
  obtain ⟨p1, p2, p3, p4⟩ := hb
  have hseq : invoiceSeq (newOrder b d whSet).invoice = b.nextInvoiceNum :=
    invoiceSeq_newInvoice b.nextInvoiceNum
  refine ⟨?_, ?_, ?_, ?_⟩
  · simp only [List.map_append, List.map_cons, List.map_nil]
    rw [List.pairwise_append]
    refine ⟨p1, List.pairwise_singleton _ _, ?_⟩
    intro x hx y hy
    obtain ⟨p, hp, rfl⟩ := List.mem_map.mp hx
    rw [List.mem_singleton.mp hy]
    exact p2 p hp
  · intro o ho
    rcases List.mem_append.mp ho with ho | ho
    · exact Nat.lt_succ_of_lt (p2 o ho)
    · rw [List.mem_singleton.mp ho]; exact Nat.lt_succ_self _
  · simp only [List.map_append, List.map_cons, List.map_nil]
    rw [List.pairwise_append]
    refine ⟨p3, List.pairwise_singleton _ _, ?_⟩
    intro x hx y hy
    obtain ⟨p, hp, rfl⟩ := List.mem_map.mp hx
    rw [List.mem_singleton.mp hy, hseq]
    exact (p4 p hp).1
  · intro o ho
    rcases List.mem_append.mp ho with ho | ho
    · exact ⟨Nat.lt_succ_of_lt (p4 o ho).1, (p4 o ho).2⟩
    · rw [List.mem_singleton.mp ho, hseq]
      exact ⟨Nat.lt_succ_self _, rfl⟩

theorem step_wellNumbered (b b' : Board) (s : Step) (hb : b.WellNumbered)
    (h : step b s = some b') : b'.WellNumbered := by
  cases s with
  | assign orderId driverId =>
    simp only [step, Option.some.injEq] at h
    subst h
    exact wellNumbered_of_maps b _ hb (assignOrder_map_id _ _ _) (assignOrder_map_invoice _ _ _)
      rfl rfl
  | deliver orderId now =>
    simp only [step, Option.some.injEq] at h
    subst h
    exact wellNumbered_of_maps b _ hb (markDelivered_map_id _ _ _)
      (markDelivered_map_invoice _ _ _) rfl rfl
  | ingest d fuel =>
    obtain ⟨whSet, _, rfl⟩ := fetchNewOrders_eq_some b b' d fuel h
    exact wellNumbered_push b d whSet hb

theorem step_nextInvoiceNum (b b' : Board) (s : Step) (h : step b s = some b') :
    b'.nextInvoiceNum = b.nextInvoiceNum + ingestCount [s] := by
  cases s with
  | assign orderId driverId =>
    simp only [step, Option.some.injEq] at h
    subst h; rfl
  | deliver orderId now =>
    simp only [step, Option.some.injEq] at h
    subst h; rfl
  | ingest d fuel =>
    obtain ⟨whSet, _, rfl⟩ := fetchNewOrders_eq_some b b' d fuel h
    rfl

theorem ingestCount_cons (s : Step) (rest : List Step) :
    ingestCount (s :: rest) = ingestCount [s] + ingestCount rest := by
  cases s <;> simp [ingestCount]
  omega

theorem run_wellNumbered (steps : List Step) :
    ∀ b b' : Board, b.WellNumbered → run b steps = some b' →
      b'.WellNumbered ∧ b'.nextInvoiceNum = b.nextInvoiceNum + ingestCount steps := by
  induction steps with
  | nil =>
    intro b b' hb h
    simp only [run, Option.some.injEq] at h
    subst h; exact ⟨hb, rfl⟩
  | cons s rest ih =>
    intro b b' hb h
    simp only [run] at h
    cases hstep : step b s with
    | none => rw [hstep] at h; exact absurd h (by simp)
    | some b1 =>
      rw [hstep] at h
      obtain ⟨h1, h2⟩ := ih b1 b' (step_wellNumbered b b1 s hb hstep) h
      refine ⟨h1, ?_⟩
      rw [h2, step_nextInvoiceNum b b1 s hstep, ingestCount_cons s rest, Nat.add_assoc]

theorem seed_wellNumbered (now : Int) : (seedBoard now).WellNumbered := by
  refine ⟨?_, ?_, ?_, ?_⟩
  · simp only [seedBoard, seedOrders, List.map]; decide
  · intro o ho
    simp only [seedBoard, seedOrders, List.mem_cons, List.mem_singleton, List.not_mem_nil,
      or_false] at ho
    rcases ho with rfl | rfl | rfl | rfl | rfl <;> simp only [seedBoard] <;> decide
  · simp only [seedBoard, seedOrders, List.map]; decide
  · intro o ho
    simp only [seedBoard, seedOrders, List.mem_cons, List.mem_singleton, List.not_mem_nil,
      or_false] at ho
    rcases ho with rfl | rfl | rfl | rfl | rfl <;> simp only [seedBoard] <;> decide

theorem fetchNewOrders_finishes_iff (b : Board) (d : Draws) :
    (∃ fuel b', fetchNewOrders b d fuel = some b') ↔
      (warehouseCount d.count = 1 ∨
        ∃ i, pick sampleWarehouses (d.warehouse i) ≠
          pick sampleWarehouses (d.warehouse 0)) := by
  rw [← (warehouseLoop_result d.count d.warehouse).2]
  constructor
  · rintro ⟨fuel, b', h⟩
    obtain ⟨whSet, hw, _⟩ := fetchNewOrders_eq_some b b' d fuel h
    exact ⟨fuel, whSet, hw⟩
  · rintro ⟨fuel, ws, h⟩
    exact ⟨fuel, { orders := b.orders ++ [newOrder b d ws]
                   nextOrderId := b.nextOrderId + 1
                   nextInvoiceNum := b.nextInvoiceNum + 1 }, by simp only [fetchNewOrders, h]⟩

/-! ## What one ingest appends -/

/-- C10, amended.  For every board and every choice of the random values of one ingest:
whenever the callback finishes, the order it appends has a warehouse list of length 1 or
2, without duplicate, made of codes among `WH1` .. `WH5`; and the callback finishes, given
enough iterations of its loop, exactly when one warehouse is asked for or some loop draw
selects a code different from the one the first loop draw selects. -/
theorem fetchNewOrders_warehouses (b : Board) (d : Draws) :
    (∀ fuel b', fetchNewOrders b d fuel = some b' →
      ∃ o, b'.orders = b.orders ++ [o] ∧
        (o.warehouses.length = 1 ∨ o.warehouses.length = 2) ∧ o.warehouses.Nodup ∧
        ∀ x ∈ o.warehouses, x ∈ ["WH1", "WH2", "WH3", "WH4", "WH5"]) ∧
    ((∃ fuel b', fetchNewOrders b d fuel = some b') ↔
      (warehouseCount d.count = 1 ∨
        ∃ i, pick sampleWarehouses (d.warehouse i) ≠
          pick sampleWarehouses (d.warehouse 0))) := by
  refine ⟨?_, fetchNewOrders_finishes_iff b d⟩
  intro fuel b' h
  obtain ⟨whSet, hw, rfl⟩ := fetchNewOrders_eq_some b b' d fuel h
  obtain ⟨h1, _, h3, h4⟩ := (warehouseLoop_result d.count d.warehouse).1 fuel whSet hw
  exact ⟨newOrder b d whSet, rfl, h1, h3, h4⟩

/-- Witness for the amended C10: with two warehouses asked for and loop draws `0.6` and
the double just below it, the callback finishes and the new order carries `WH4` and
`WH3`. -/
theorem fetchNewOrders_warehouses_witness :
    ((fetchNewOrders (seedBoard 0) drawsRounding 3).map fun b =>
        b.orders.getLast?.map fun o => o.warehouses) = some (some ["WH4", "WH3"]) ∧
    ∃ fuel b', fetchNewOrders (seedBoard 0) drawsRounding fuel = some b' :=
  ⟨by decide,
    (fetchNewOrders_warehouses (seedBoard 0) drawsRounding).2.mpr (Or.inr ⟨1, by decide⟩)⟩

/-- C8, counterexample.  On the seed board, an ingest that asks for two warehouses and
whose loop draws are all 0 never leaves its loop: whatever the number of iterations, the
callback appends no order, so it is not true that every ingest step appends one. -/
theorem fetchNewOrders_stuck_appends_nothing :
    Reachable 0 (seedBoard 0) ∧
    (∀ fuel, fetchNewOrders (seedBoard 0) drawsStuck fuel = none) ∧
    ¬ (∀ (now : Int) (b : Board) (d : Draws), Reachable now b →
        ∃ fuel b' o, fetchNewOrders b d fuel = some b' ∧ b'.orders = b.orders ++ [o]) := by
  have hstuck : ∀ fuel, fetchNewOrders (seedBoard 0) drawsStuck fuel = none := by
    intro fuel
    have : warehouseLoop (warehouseCount drawsStuck.count) drawsStuck.warehouse fuel 0 [] =
        none := by
      show warehouseLoop (warehouseCount drawHalf) (fun _ : Nat => drawZero) fuel 0 [] = none
      rw [warehouseCount_drawHalf]; exact warehouseLoop_drawZero_spins fuel
    simp [fetchNewOrders, this]
  refine ⟨⟨[], rfl⟩, hstuck, ?_⟩
  intro h
  obtain ⟨fuel, b', o, hf, _⟩ := h 0 (seedBoard 0) drawsStuck ⟨[], rfl⟩
  rw [hstuck fuel] at hf
  exact absurd hf (by simp)

/-- C8, amended.  In every state reachable from the seed, a run of the ingest callback
whose warehouse loop terminates appends exactly one order at the end of the collection and
leaves the existing orders as they are; the new order is `Unassigned` with no driver and
no delivered time, its id is greater than every existing id and its invoice sequence
number greater than every existing one, and ids and invoices are pairwise distinct
afterwards.  The loop terminates, given enough iterations, exactly when one warehouse is
asked for or some loop draw selects a code different from the one the first loop draw
selects; otherwise the callback appends nothing. -/
theorem fetchNewOrders_appends (now : Int) (b : Board) (d : Draws) (h : Reachable now b) :
    (∀ fuel b', fetchNewOrders b d fuel = some b' →
      ∃ o, b'.orders = b.orders ++ [o] ∧
        o.status = .Unassigned ∧ o.driverId = none ∧ o.deliveredTime = none ∧
        (∀ p ∈ b.orders, p.id < o.id) ∧
        (∀ p ∈ b.orders, invoiceSeq p.invoice < invoiceSeq o.invoice) ∧
        (b'.orders.map fun p => p.id).Nodup ∧ (b'.orders.map fun p => p.invoice).Nodup) ∧
    ((∃ fuel b', fetchNewOrders b d fuel = some b') ↔
      (warehouseCount d.count = 1 ∨
        ∃ i, pick sampleWarehouses (d.warehouse i) ≠
          pick sampleWarehouses (d.warehouse 0))) := by
  refine ⟨?_, fetchNewOrders_finishes_iff b d⟩
  intro fuel b' hf
  obtain ⟨steps, hrun⟩ := h
  obtain ⟨hb, _⟩ := run_wellNumbered steps _ b (seed_wellNumbered now) hrun
  obtain ⟨whSet, _, rfl⟩ := fetchNewOrders_eq_some b b' d fuel hf
  obtain ⟨q1, _, q3, _⟩ := wellNumbered_push b d whSet hb
  obtain ⟨_, p2, _, p4⟩ := hb
  refine ⟨newOrder b d whSet, rfl, rfl, rfl, rfl, p2, ?_, ?_, ?_⟩
  · intro p hp
    have : invoiceSeq (newOrder b d whSet).invoice = b.nextInvoiceNum :=
      invoiceSeq_newInvoice b.nextInvoiceNum
    rw [this]; exact (p4 p hp).1
  · exact q1.imp (fun hlt => Nat.ne_of_lt hlt)
  · have hnd : ((b.orders ++ [newOrder b d whSet]).map fun o => invoiceSeq o.invoice).Nodup :=
      q3.imp (fun hlt => Nat.ne_of_lt hlt)
    have hcomp : ((b.orders ++ [newOrder b d whSet]).map fun o => invoiceSeq o.invoice) =
        ((b.orders ++ [newOrder b d whSet]).map fun o => o.invoice).map invoiceSeq := by
      simp [List.map_map, Function.comp_def]
    rw [hcomp] at hnd
    exact List.Nodup.of_map _ hnd

/-- Witness for the amended C8: one ingest on the seed board. -/
theorem fetchNewOrders_appends_witness :
    Reachable 0 (seedBoard 0) ∧
    ((fetchNewOrders (seedBoard 0) drawsCycling 3).map fun b =>
        (b.orders.map fun o => (o.id, o.invoice), b.nextOrderId, b.nextInvoiceNum)) =
      some ([(101, "INV001"), (102, "INV002"), (103, "INV003"), (104, "INV004"),
        (105, "INV005"), (106, "INV006")], 107, 7) ∧
    ∀ fuel b', fetchNewOrders (seedBoard 0) drawsCycling fuel = some b' →
      ∃ o, b'.orders = (seedBoard 0).orders ++ [o] ∧
        o.status = .Unassigned ∧ o.driverId = none ∧ o.deliveredTime = none ∧
        (∀ p ∈ (seedBoard 0).orders, p.id < o.id) ∧
        (∀ p ∈ (seedBoard 0).orders, invoiceSeq p.invoice < invoiceSeq o.invoice) ∧
        (b'.orders.map fun p => p.id).Nodup ∧ (b'.orders.map fun p => p.invoice).Nodup :=
  ⟨⟨[], rfl⟩, by decide, (fetchNewOrders_appends 0 (seedBoard 0) drawsCycling ⟨[], rfl⟩).1⟩

/-! ## The form of invoice strings -/

theorem fetchNewOrders_allZero (b : Board) :
    fetchNewOrders b drawsAllZero 2 =
      some { orders := b.orders ++ [newOrder b drawsAllZero ["WH1"]]
             nextOrderId := b.nextOrderId + 1
             nextInvoiceNum := b.nextInvoiceNum + 1 } := rfl

theorem run_replicate_ingest (n : Nat) :
    ∀ b : Board, ∃ b', run b (List.replicate n (.ingest drawsAllZero 2)) = some b' := by
  induction n with
  | zero => intro b; exact ⟨b, rfl⟩
  | succ n ih =>
    intro b
    obtain ⟨b', hb'⟩ := ih { orders := b.orders ++ [newOrder b drawsAllZero ["WH1"]]
                             nextOrderId := b.nextOrderId + 1
                             nextInvoiceNum := b.nextInvoiceNum + 1 }
    refine ⟨b', ?_⟩
    simp only [List.replicate_succ, run, step, fetchNewOrders_allZero, Option.some_bind]
    exact hb'

theorem ingestCount_replicate (d : Draws) (fuel n : Nat) :
    ingestCount (List.replicate n (.ingest d fuel)) = n := by
  induction n with
  | zero => rfl
  | succ n ih => simp [List.replicate_succ, ingestCount, ih]

theorem digitChar_isDigit (k : Nat) (hk : k < 10) : (Nat.digitChar k).isDigit = true := by
  interval_cases k <;> decide

/-- C9, counterexample.  After 994 ingests the counter is 1000 and `padStart(3, '0')` pads
nothing: the next invoice is `INV1000`, four digits after the letters, and as a string it
is smaller than the invoice `INV999` given just before. -/
theorem invoice_four_digits_after_994_ingests :
    (∃ steps b b', run (seedBoard 0) steps = some b ∧ ingestCount steps = 994 ∧
      fetchNewOrders b drawsAllZero 2 = some b' ∧
      ∃ o, b'.orders = b.orders ++ [o] ∧ o.invoice = "INV1000") ∧
    newInvoice 1000 = "INV1000" ∧ ("INV1000" : String).length = 7 ∧
    newInvoice 999 = "INV999" ∧ newInvoice 1000 < newInvoice 999 := by
  have h1000 : newInvoice 1000 = "INV1000" := by decide
  have h999 : newInvoice 999 = "INV999" := by decide
  refine ⟨?_, h1000, by decide, h999, by
    rw [h1000, h999, String.lt_iff_toList_lt]; decide⟩
  obtain ⟨b, hb⟩ := run_replicate_ingest 994 (seedBoard 0)
  have hcount := ingestCount_replicate drawsAllZero 2 994
  obtain ⟨_, hnum⟩ := run_wellNumbered _ _ b (seed_wellNumbered 0) hb
  rw [hcount] at hnum
  refine ⟨_, b, _, hb, hcount, fetchNewOrders_allZero b, _, rfl, ?_⟩
  show newInvoice b.nextInvoiceNum = "INV1000"
  rw [hnum]
  decide

/-- C9, amended.  When fewer than 994 ingests have been performed since startup (the
counter is at most 999), the invoice given to the newly ingested order is `INV` followed
by exactly three decimal digits that write the sequence number `6 + k`, `k` being the
number of ingests performed before; it is greater, as a string, than the invoice of every
order already on the board, and the invoices of the board are strictly increasing along
the collection. -/
theorem invoice_three_digits (now : Int) (steps : List Step) (b b' : Board) (d : Draws)
    (fuel : Nat) (hrun : run (seedBoard now) steps = some b)
    (hk : ingestCount steps < 994) (hf : fetchNewOrders b d fuel = some b') :
    ∃ o, b'.orders = b.orders ++ [o] ∧
      o.invoice.data.take 3 = ['I', 'N', 'V'] ∧
      (o.invoice.data.drop 3).length = 3 ∧
      (∀ c ∈ o.invoice.data.drop 3, c.isDigit = true) ∧
      invoiceSeq o.invoice = 6 + ingestCount steps ∧
      (∀ p ∈ b.orders, p.invoice < o.invoice) ∧
      (b'.orders.map fun p => p.invoice).Pairwise (· < ·) := by
  obtain ⟨hb, hnum⟩ := run_wellNumbered steps _ b (seed_wellNumbered now) hrun
  have hnum' : b.nextInvoiceNum = 6 + ingestCount steps := hnum
  have hlt : b.nextInvoiceNum < 1000 := by omega
  obtain ⟨whSet, _, rfl⟩ := fetchNewOrders_eq_some b b' d fuel hf
  obtain ⟨_, _, q3, q4⟩ := wellNumbered_push b d whSet hb
  obtain ⟨_, _, _, p4⟩ := hb
  have hinv : (newOrder b d whSet).invoice = newInvoice b.nextInvoiceNum := rfl
  have hform := newInvoice_three_digits b.nextInvoiceNum hlt
  refine ⟨newOrder b d whSet, rfl, ?_, ?_, ?_, ?_, ?_, ?_⟩
  · rw [hinv, hform]; rfl
  · rw [hinv, hform]; rfl
  · rw [hinv, hform]
    intro c hc
    simp only [List.drop_succ_cons, List.drop_zero, List.mem_cons, List.mem_singleton,
      List.not_mem_nil, or_false] at hc
    rcases hc with rfl | rfl | rfl
    · exact digitChar_isDigit _ (by omega)
    · exact digitChar_isDigit _ (by omega)
    · exact digitChar_isDigit _ (by omega)
  · rw [hinv, invoiceSeq_newInvoice, hnum']
  · intro p hp
    rw [hinv, (p4 p hp).2]
    exact newInvoice_lt _ _ (p4 p hp).1 hlt
  · rw [List.pairwise_map] at q3 ⊢
    refine q3.imp_of_mem ?_
    intro x y hx hy hxy
    rw [(q4 x hx).2, (q4 y hy).2]
    exact newInvoice_lt _ _ hxy (by have := (q4 y hy).1; simp only at this; omega)

/-- Witness for the amended C9: the first ingest after startup gives `INV006`. -/
theorem invoice_three_digits_witness :
    run (seedBoard 0) [] = some (seedBoard 0) ∧ ingestCount [] < 994 ∧
    fetchNewOrders (seedBoard 0) drawsCycling 3 =
      some { orders := (seedBoard 0).orders ++
               [newOrder (seedBoard 0) drawsCycling ["WH1", "WH2"]]
             nextOrderId := 107
             nextInvoiceNum := 7 } ∧
    (newOrder (seedBoard 0) drawsCycling ["WH1", "WH2"]).invoice = "INV006" ∧
    ∃ o, ((seedBoard 0).orders ++ [newOrder (seedBoard 0) drawsCycling ["WH1", "WH2"]]) =
        (seedBoard 0).orders ++ [o] ∧
      o.invoice.data.take 3 = ['I', 'N', 'V'] ∧
      (o.invoice.data.drop 3).length = 3 ∧
      (∀ c ∈ o.invoice.data.drop 3, c.isDigit = true) ∧
      invoiceSeq o.invoice = 6 + ingestCount [] ∧
      (∀ p ∈ (seedBoard 0).orders, p.invoice < o.invoice) ∧
      (((seedBoard 0).orders ++ [newOrder (seedBoard 0) drawsCycling ["WH1", "WH2"]]).map
        fun p => p.invoice).Pairwise (· < ·) :=
  ⟨rfl, by decide, by decide, by decide,
    invoice_three_digits 0 [] (seedBoard 0)
      { orders := (seedBoard 0).orders ++
          [newOrder (seedBoard 0) drawsCycling ["WH1", "WH2"]]
        nextOrderId := 107
        nextInvoiceNum := 7 } drawsCycling 3 rfl (by decide) (by decide)⟩

end Dispatch
